import Mathlib

/-!
Verification of the core of `eeg_positions`: the arc point solver
(`find_point_at_fraction` in `eeg_positions/utils.py` and
`eeg_positions/utilities.py`) and the contour expansion engine
(the per-contour loop of `eeg_positions/calc_positions.py`).

Real-valued Python/NumPy arithmetic is embedded as arithmetic over `ℝ`
(`np.sqrt` is `Real.sqrt`, `np.arctan2 y x` is `Complex.arg ⟨x, y⟩`,
`np.round(·, 4)` is round-half-to-even scaled by `10^4`), and a Python
`raise ValueError(msg)` is an `Except.error msg`.
-/

open Real

/-- Points are x, y, z cartesian coordinate triples, as the Python tuples. -/
abbrev Point := ℝ × ℝ × ℝ

/-- Componentwise dot product of two coordinate triples; used to express the
scalar expressions `xn*x1 + yn*y1 + zn*z1` etc. of the source compactly. -/
def dot (a b : Point) : ℝ := a.1 * b.1 + a.2.1 * b.2.1 + a.2.2 * b.2.2

/-- Componentwise cross product, with components exactly as written in the
source (`xn = y12*z13 - z12*y13`, `yn = z12*x13 - x12*z13`,
`zn = x12*y13 - y12*x13`, and likewise for the V axis vector). -/
def cross (a b : Point) : Point :=
  (a.2.1 * b.2.2 - a.2.2 * b.2.1, a.2.2 * b.1 - a.1 * b.2.2, a.1 * b.2.1 - a.2.1 * b.1)

/-- Round half to even on the reals: the tie-breaking rule used by
`np.round`. -/
noncomputable def roundHalfEven (x : ℝ) : ℤ :=
  if x - ⌊x⌋ < 1 / 2 then ⌊x⌋
  else if 1 / 2 < x - ⌊x⌋ then ⌈x⌉
  else if ⌊x⌋ % 2 = 0 then ⌊x⌋ else ⌈x⌉

/-- The model of `np.round(x, decimals=4)`: scale by `10^4`, round half to
even, scale back. -/
noncomputable def round4 (x : ℝ) : ℝ := (roundHalfEven (x * 10000) : ℝ) / 10000

/-- Rounding a point to 4 decimals, componentwise: the model of
`tuple(np.asarray(point).round(decimals=4))`. -/
noncomputable def roundPoint (p : Point) : Point :=
  (round4 p.1, round4 p.2.1, round4 p.2.2)

/-- The model of `np.arctan2 y x`: the argument of the complex number
`x + y*i`, valued in `(-π, π]` with `atan2 0 0 = 0`, as NumPy. -/
noncomputable def atan2 (y x : ℝ) : ℝ := Complex.arg ⟨x, y⟩

namespace Utils

/-- Embedding of `find_point_at_fraction` from `eeg_positions/utils.py`.
The scalar let-bindings of the source are written as coordinate triples:
`cross`/`dot` expand to exactly the source's componentwise formulas, and
`n⁻¹ • nv` is the componentwise division `xn/n, yn/n, zn/n`. -/
noncomputable def find_point_at_fraction (p1 p2 p3 : Point) (frac : ℝ) :
    Except String Point :=
  -- unit normal vector of the plane spanning the three points
  let nv := cross (p2 - p1) (p3 - p1)
  let n := Real.sqrt (dot nv nv)
  if n ≤ 0 then
    Except.error "Points are either collinear or share the same coordinates."
  else
    let nh := n⁻¹ • nv
    -- signed distance from plane to origin, and circle center
    let d := dot nh p1
    let c := d • nh
    -- 2D U axis vector towards p1 and V axis vector
    let u := p1 - c
    let v0 := cross nh u
    -- choose V axis towards p2
    let v := if dot (p2 - c) v0 < 0 then -v0 else v0
    -- positive plane angle towards p3
    let theta0 := atan2 (dot (p3 - c) v) (dot (p3 - c) u)
    let theta := if theta0 < 0 then theta0 + 2 * Real.pi else theta0
    -- coordinates at fraction, rounded to 4 decimals
    let q := c + Real.cos (frac * theta) • u + Real.sin (frac * theta) • v
    Except.ok (round4 q.1, round4 q.2.1, round4 q.2.2)

end Utils

namespace Utilities

/-- Embedding of `find_point_at_fraction` from `eeg_positions/utilities.py`
(the older copy of the module; the fraction parameter is named `f` there).
The computation is embedded in the same way as the `utils.py` one. -/
noncomputable def find_point_at_fraction (p1 p2 p3 : Point) (f : ℝ) :
    Except String Point :=
  let nv := cross (p2 - p1) (p3 - p1)
  let n := Real.sqrt (dot nv nv)
  if n ≤ 0 then
    Except.error "Points are either collinear or share the same coordinates."
  else
    let nh := n⁻¹ • nv
    let d := dot nh p1
    let c := d • nh
    let u := p1 - c
    let v0 := cross nh u
    let v := if dot (p2 - c) v0 < 0 then -v0 else v0
    let theta0 := atan2 (dot (p3 - c) v) (dot (p3 - c) u)
    let theta := if theta0 < 0 then theta0 + 2 * Real.pi else theta0
    let q := c + Real.cos (f * theta) • u + Real.sin (f * theta) • v
    Except.ok (round4 q.1, round4 q.2.1, round4 q.2.2)

end Utilities

namespace CalcPositions

/-- The growing table of named positions: the rows (label, point) of the
pandas data frame `df` of `calc_positions.py`, in row order. -/
abbrev Table := List (String × Point)

/-- The labels column of the table. -/
def labelsOf (df : Table) : List String := df.map Prod.fst

/-- Embedding of `get_xyz` from `eeg_positions/utils.py`: select the rows
whose label matches, demand exactly one row, and return its coordinates.
(The data-frame column check of the source is vacuous here: a `Table` has
its columns by construction.) -/
def get_xyz (df : Table) (label : String) : Except String Point :=
  match (df.filter (fun r => r.1 == label)).map Prod.snd with
  | [p] => Except.ok p
  | l => Except.error ("Expected one row of data but got " ++ toString l.length)

/-- Keyed assignment `d[k] = v` on a Python dict represented as its
insertion-ordered association list: an existing key keeps its position and
gets the new value, a new key is appended. -/
def dictUpsert (d : List (String × Point)) (k : String) (v : Point) :
    List (String × Point) :=
  if d.any (fun r => r.1 == k) then
    d.map (fun r => if r.1 == k then (r.1, v) else r)
  else d ++ [(k, v)]

/-- The `for i, label in enumerate(contour)` loop of `calc_positions.py`
filling the dict `other_ps` with
`find_point_at_fraction(p1, p2, p3, frac=i / (len(contour) - 1))`;
a raised error propagates out of the loop. -/
noncomputable def computeContourPoints (p1 p2 p3 : Point) (len : ℕ) :
    List (ℕ × String) → List (String × Point) → Except String (List (String × Point))
  | [], acc => Except.ok acc
  | (i, label) :: rest, acc =>
    match Utils.find_point_at_fraction p1 p2 p3 ((i : ℝ) / ((len : ℝ) - 1)) with
    | Except.error e => Except.error e
    | Except.ok pt => computeContourPoints p1 p2 p3 len rest (dictUpsert acc label pt)

/-- Embedding of `df.drop_duplicates(subset="label", keep="first")`: keep
each row whose label has not been seen earlier. -/
def dropDuplicatesFirst : List (String × Point) → List String → List (String × Point)
  | [], _ => []
  | r :: rest, seen =>
    if r.1 ∈ seen then dropDuplicatesFirst rest seen
    else r :: dropDuplicatesFirst rest (r.1 :: seen)

/-- The body of the contour loop of `calc_positions.py` after the midpoint
index has been determined: look up the reference points of the contour
(`p1 = get_xyz(df, contour[0])`, `p2 = get_xyz(df, contour[midpoint_idx])`,
`p3 = get_xyz(df, contour[-1])`), compute all points at fractions, append
them to the data frame and drop duplicate labels keeping the first. -/
noncomputable def contourStep (df : Table) (contour : List String) (midpoint_idx : ℕ) :
    Except String Table :=
  match get_xyz df (contour.headD "") with
  | Except.error e => Except.error e
  | Except.ok p1 =>
    match get_xyz df (contour.getD midpoint_idx "") with
    | Except.error e => Except.error e
    | Except.ok p2 =>
      match get_xyz df (contour.getLastD "") with
      | Except.error e => Except.error e
      | Except.ok p3 =>
        match computeContourPoints p1 p2 p3 contour.length contour.enum [] with
        | Except.error e => Except.error e
        | Except.ok other_ps =>
          Except.ok (dropDuplicatesFirst (df ++ other_ps) [])

/-- One iteration of the contour loop of `calc_positions.py` (also the
behaviour of `_add_points_along_contour`): contours of length 21 use
midpoint index 10, contours of length 17 use midpoint index 8, any other
length raises. -/
noncomputable def add_points_along_contour (df : Table) (contour : List String) :
    Except String Table :=
  if contour.length = 21 then contourStep df contour 10
  else if contour.length = 17 then contourStep df contour 8
  else
    Except.error ("contour must be of len 17 or 21 but is " ++ toString contour.length)

/-- The `for contour in contour_order` loop: thread the table through the
contours in order, aborting on the first error. -/
noncomputable def expand_all (df : Table) : List (List String) → Except String Table
  | [] => Except.ok df
  | contour :: rest =>
    match add_points_along_contour df contour with
    | Except.error e => Except.error e
    | Except.ok df2 => expand_all df2 rest

/-- Known location `front = (0., 1., 0.)` (both equator branches). -/
def front : Point := (0, 1, 0)

/-- Known location `right = (1., 0., 0.)`. -/
def right : Point := (1, 0, 0)

/-- Known location `back = (0., -1., 0.)`. -/
def back : Point := (0, -1, 0)

/-- Known location `left = (-1., 0., 0.)`. -/
def left : Point := (-1, 0, 0)

/-- Known location `Cz = (0., 0., 1.)` (called `top` in `compute.py`). -/
def Cz : Point := (0, 0, 1)

/-- Splitting a list of characters at every dash, the recursion behind
`splitOnDash`. -/
def splitCharsOnDash : List Char → List (List Char)
  | [] => [[]]
  | ch :: rest =>
    match splitCharsOnDash rest with
    | [] => [[ch]]
    | g :: gs => if ch = '-' then [] :: g :: gs else (ch :: g) :: gs

/-- The model of Python's `equator.split("-")` as used on the equator
names (a structurally recursive split, since the separator is the single
character `-`). -/
def splitOnDash (s : String) : List String :=
  (splitCharsOnDash s.data).map List.asString

/-- The seed data frame of `calc_positions.py`: the dict
`d = {"label": equator.split("-") + ["Cz"], "x": [...], ...}` pairing the
four equator labels with front, right, back, left and label "Cz" with the
vertex. -/
def seed_table (equator : String) : Table :=
  (splitOnDash equator ++ ["Cz"]).zip [front, right, back, left, Cz]

/-- The eight extra positions computed "manually" for the `Fpz-T8-Oz-T7`
equator (`calc_positions.py`, the `other_ps` dict of the fix-up block):
each is a direct `find_point_at_fraction` call on an arc of raw seed
tuples through the vertex, at a fraction beyond 1. The dict keys are
pairwise distinct, so the dict is its insertion-ordered list of rows. -/
noncomputable def fpz_manual_ps (frac_modifier : ℝ) :
    Except String (List (String × Point)) :=
  match Utils.find_point_at_fraction front Cz back (1 + 1 * frac_modifier) with
  | Except.error e => Except.error e
  | Except.ok oiz =>
  match Utils.find_point_at_fraction front Cz back (1 + 2 * frac_modifier) with
  | Except.error e => Except.error e
  | Except.ok iz =>
  match Utils.find_point_at_fraction back Cz front (1 + 1 * frac_modifier) with
  | Except.error e => Except.error e
  | Except.ok nfpz =>
  match Utils.find_point_at_fraction back Cz front (1 + 2 * frac_modifier) with
  | Except.error e => Except.error e
  | Except.ok nz =>
  match Utils.find_point_at_fraction left Cz right (1 + 1 * frac_modifier) with
  | Except.error e => Except.error e
  | Except.ok t10h =>
  match Utils.find_point_at_fraction left Cz right (1 + 2 * frac_modifier) with
  | Except.error e => Except.error e
  | Except.ok t10 =>
  match Utils.find_point_at_fraction right Cz left (1 + 1 * frac_modifier) with
  | Except.error e => Except.error e
  | Except.ok t9h =>
  match Utils.find_point_at_fraction right Cz left (1 + 2 * frac_modifier) with
  | Except.error e => Except.error e
  | Except.ok t9 =>
    Except.ok [("OIz", oiz), ("Iz", iz), ("NFpz", nfpz), ("Nz", nz),
               ("T10h", t10h), ("T10", t10), ("T9h", t9h), ("T9", t9)]

/-- Appending the manual fix-up points to the data frame and dropping
duplicate labels keeping the first computations (`calc_positions.py`,
lines following the `other_ps` dict of the fix-up block). -/
noncomputable def fpz_fixup (df : Table) (frac_modifier : ℝ) : Except String Table :=
  match fpz_manual_ps frac_modifier with
  | Except.error e => Except.error e
  | Except.ok ps => Except.ok (dropDuplicatesFirst (df ++ ps) [])

/-- The whole-run orchestration of `calc_positions.py` for the
`Nz-T10-Iz-T9` equator, parameterized by the contour catalog
(`ALL_CONTOURS`, whose concrete data lives in the absent
`contour_labels.py`): seed the table, then expand every contour in order. -/
noncomputable def calc_positions_nz (catalog : List (List String)) :
    Except String Table :=
  expand_all (seed_table "Nz-T10-Iz-T9") catalog

/-- The whole-run orchestration of `calc_positions.py` for the
`Fpz-T8-Oz-T7` equator, parameterized by the catalog (`ALL_CONTOURS2`):
expand `ALL_CONTOURS2[:-5]`, add the eight manual positions with
`frac_modifier = 1 / len(ALL_CONTOURS2[0])`, then expand the last five
contours `ALL_CONTOURS2[-5:]`. -/
noncomputable def calc_positions_fpz (catalog : List (List String)) :
    Except String Table :=
  match expand_all (seed_table "Fpz-T8-Oz-T7") (catalog.take (catalog.length - 5)) with
  | Except.error e => Except.error e
  | Except.ok df =>
    match fpz_fixup df (1 / ((catalog.headD []).length : ℝ)) with
    | Except.error e => Except.error e
    | Except.ok df2 => expand_all df2 (catalog.drop (catalog.length - 5))

end CalcPositions

/-! ### Componentwise algebra of `dot` and `cross` -/

namespace PointAlgebra

theorem dot_comm (a b : Point) : dot a b = dot b a := by
  simp only [dot]; ring

theorem dot_self_nonneg (p : Point) : 0 ≤ dot p p := by
  simp only [dot]; nlinarith [sq_nonneg p.1, sq_nonneg p.2.1, sq_nonneg p.2.2]

theorem dot_self_eq_zero_iff (p : Point) : dot p p = 0 ↔ p = ((0, 0, 0) : Point) := by
  constructor
  · intro h
    simp only [dot] at h
    have h1 : p.1 = 0 := by nlinarith [sq_nonneg p.1, sq_nonneg p.2.1, sq_nonneg p.2.2]
    have h2 : p.2.1 = 0 := by nlinarith [sq_nonneg p.1, sq_nonneg p.2.1, sq_nonneg p.2.2]
    have h3 : p.2.2 = 0 := by nlinarith [sq_nonneg p.1, sq_nonneg p.2.1, sq_nonneg p.2.2]
    exact Prod.ext h1 (Prod.ext h2 h3)
  · intro h; subst h; simp [dot]

theorem dot_self_pos {p : Point} (h : p ≠ ((0, 0, 0) : Point)) : 0 < dot p p :=
  (dot_self_nonneg p).lt_of_ne fun h0 => h ((dot_self_eq_zero_iff p).mp h0.symm)

theorem dot_cross_left (a b : Point) : dot (cross a b) a = 0 := by
  simp only [dot, cross]; ring

theorem dot_cross_right (a b : Point) : dot (cross a b) b = 0 := by
  simp only [dot, cross]; ring

theorem cross_lagrange (a b : Point) :
    dot (cross a b) (cross a b) = dot a a * dot b b - dot a b ^ 2 := by
  simp only [dot, cross]; ring

theorem dot_smul_right (r : ℝ) (a b : Point) : dot a (r • b) = r * dot a b := by
  simp only [dot, Prod.smul_fst, Prod.smul_snd, smul_eq_mul]; ring

theorem dot_smul_left (r : ℝ) (a b : Point) : dot (r • a) b = r * dot a b := by
  simp only [dot, Prod.smul_fst, Prod.smul_snd, smul_eq_mul]; ring

theorem dot_sub_right (a b c : Point) : dot a (b - c) = dot a b - dot a c := by
  simp only [dot, Prod.fst_sub, Prod.snd_sub]; ring

theorem dot_sub_left (a b c : Point) : dot (a - b) c = dot a c - dot b c := by
  simp only [dot, Prod.fst_sub, Prod.snd_sub]; ring

theorem dot_add_right (a b c : Point) : dot a (b + c) = dot a b + dot a c := by
  simp only [dot, Prod.fst_add, Prod.snd_add]; ring

theorem dot_neg_right (a b : Point) : dot a (-b) = -dot a b := by
  simp only [dot, Prod.fst_neg, Prod.snd_neg]; ring

/-- Cramer's rule for the first coordinate: a vector orthogonal to the rows
`a`, `u`, `cross a u` has its coordinates annihilated by the Gram
determinant of `cross a u`. -/
theorem cramer_fst (a u w : Point) :
    dot (cross a u) (cross a u) * w.1 =
      (u.2.1 * (cross a u).2.2 - u.2.2 * (cross a u).2.1) * dot a w
      - (a.2.1 * (cross a u).2.2 - a.2.2 * (cross a u).2.1) * dot u w
      + (a.2.1 * u.2.2 - a.2.2 * u.2.1) * dot (cross a u) w := by
  simp only [dot, cross]; ring

theorem cramer_snd (a u w : Point) :
    dot (cross a u) (cross a u) * w.2.1 =
      -(u.1 * (cross a u).2.2 - u.2.2 * (cross a u).1) * dot a w
      + (a.1 * (cross a u).2.2 - a.2.2 * (cross a u).1) * dot u w
      - (a.1 * u.2.2 - a.2.2 * u.1) * dot (cross a u) w := by
  simp only [dot, cross]; ring

theorem cramer_trd (a u w : Point) :
    dot (cross a u) (cross a u) * w.2.2 =
      (u.1 * (cross a u).2.1 - u.2.1 * (cross a u).1) * dot a w
      - (a.1 * (cross a u).2.1 - a.2.1 * (cross a u).1) * dot u w
      + (a.1 * u.2.1 - a.2.1 * u.1) * dot (cross a u) w := by
  simp only [dot, cross]; ring

/-- A vector orthogonal to `a`, `u` and `cross a u` is zero when
`cross a u` is nonzero. -/
theorem orth_triple_zero {a u w : Point} (hcu : cross a u ≠ ((0, 0, 0) : Point))
    (h1 : dot a w = 0) (h2 : dot u w = 0) (h3 : dot (cross a u) w = 0) :
    w = ((0, 0, 0) : Point) := by
  have hpos : 0 < dot (cross a u) (cross a u) := dot_self_pos hcu
  have e1 := cramer_fst a u w
  have e2 := cramer_snd a u w
  have e3 := cramer_trd a u w
  rw [h1, h2, h3] at e1 e2 e3
  simp only [mul_zero, zero_mul, sub_zero, add_zero, zero_add, neg_zero, zero_sub,
    neg_neg] at e1 e2 e3
  have w1 : w.1 = 0 := by
    rcases mul_eq_zero.mp e1 with h | h
    · exact absurd h hpos.ne'
    · exact h
  have w2 : w.2.1 = 0 := by
    rcases mul_eq_zero.mp e2 with h | h
    · exact absurd h hpos.ne'
    · exact h
  have w3 : w.2.2 = 0 := by
    rcases mul_eq_zero.mp e3 with h | h
    · exact absurd h hpos.ne'
    · exact h
  exact Prod.ext w1 (Prod.ext w2 w3)

/-- Decomposition of a vector of the plane orthogonal to the unit vector `a`
along the orthogonal basis `u`, `cross a u` of that plane. -/
theorem span_decomp {a u : Point} (t : Point) (haa : dot a a = 1)
    (hau : dot a u = 0) (hat : dot a t = 0) (huu : dot u u ≠ 0) :
    (dot u u) • t = (dot t u) • u + (dot t (cross a u)) • cross a u := by
  have hv : dot (cross a u) (cross a u) = dot u u := by
    rw [cross_lagrange, haa, hau]; ring
  have hcu : cross a u ≠ ((0, 0, 0) : Point) := by
    intro h0
    apply huu
    rw [← hv, h0]
    simp [dot]
  have key : (dot u u) • t - ((dot t u) • u + (dot t (cross a u)) • cross a u)
      = ((0, 0, 0) : Point) := by
    apply orth_triple_zero hcu
    · rw [dot_sub_right, dot_add_right, dot_smul_right, dot_smul_right, dot_smul_right,
        hat, hau]
      have h2 : dot a (cross a u) = 0 := by rw [dot_comm]; exact dot_cross_left a u
      rw [h2]; ring
    · rw [dot_sub_right, dot_add_right, dot_smul_right, dot_smul_right, dot_smul_right]
      have h1 : dot u (cross a u) = 0 := by rw [dot_comm]; exact dot_cross_right a u
      rw [h1, dot_comm u t]; ring
    · rw [dot_sub_right, dot_add_right, dot_smul_right, dot_smul_right, dot_smul_right]
      have h1 : dot (cross a u) u = 0 := dot_cross_right a u
      rw [hv, h1, dot_comm (cross a u) t]; ring
  have key0 : (dot u u) • t - ((dot t u) • u + (dot t (cross a u)) • cross a u)
      = (0 : Point) := by rw [key]; rfl
  exact sub_eq_zero.mp key0

end PointAlgebra

namespace PointAlgebra

/-- The normal vector `cross (p2 - p1) (p3 - p1)` vanishes exactly on the
degenerate inputs: collinear triples (which includes every triple in which
two of the points coincide). -/
theorem cross_eq_zero_iff_collinear (p1 p2 p3 : Point) :
    cross (p2 - p1) (p3 - p1) = ((0, 0, 0) : Point)
      ↔ Collinear ℝ ({p1, p2, p3} : Set Point) := by
  have hmem : p1 ∈ ({p1, p2, p3} : Set Point) := Set.mem_insert p1 {p2, p3}
  rw [collinear_iff_of_mem hmem]
  constructor
  · intro h
    set u : Point := p2 - p1 with hu
    set w : Point := p3 - p1 with hw
    by_cases hu0 : u = 0
    · refine ⟨w, ?_⟩
      intro p hp
      rcases hp with hp | hp | hp
      · exact ⟨0, by simp [hp]⟩
      · refine ⟨0, ?_⟩
        have : p2 = p1 := by
          have := sub_eq_zero.mp hu0
          exact this
        simp [hp, this]
      · refine ⟨1, ?_⟩
        simp only [Set.mem_singleton_iff] at hp
        rw [hp, vadd_eq_add, one_smul, hw]
        abel
    · -- u ≠ 0: some coordinate of u is nonzero, and w is a multiple of u
      have hcomp : u.1 ≠ 0 ∨ u.2.1 ≠ 0 ∨ u.2.2 ≠ 0 := by
        by_contra hc
        push_neg at hc
        exact hu0 (Prod.ext hc.1 (Prod.ext hc.2.1 hc.2.2))
      have hx : u.2.1 * w.2.2 - u.2.2 * w.2.1 = 0 := congrArg Prod.fst h
      have hy : u.2.2 * w.1 - u.1 * w.2.2 = 0 := congrArg (fun p => p.2.1) h
      have hz : u.1 * w.2.1 - u.2.1 * w.1 = 0 := congrArg (fun p => p.2.2) h
      have hkey : ∃ r : ℝ, w = r • u := by
        rcases hcomp with h1 | h2 | h3
        · refine ⟨w.1 / u.1, ?_⟩
          have e1 : w.1 = w.1 / u.1 * u.1 := by field_simp
          have e2 : w.2.1 = w.1 / u.1 * u.2.1 := by
            field_simp
            linarith [hz]
          have e3 : w.2.2 = w.1 / u.1 * u.2.2 := by
            field_simp
            linarith [hy]
          exact Prod.ext (by simpa using e1) (Prod.ext (by simpa using e2) (by simpa using e3))
        · refine ⟨w.2.1 / u.2.1, ?_⟩
          have e1 : w.1 = w.2.1 / u.2.1 * u.1 := by
            field_simp
            linarith [hz]
          have e2 : w.2.1 = w.2.1 / u.2.1 * u.2.1 := by field_simp
          have e3 : w.2.2 = w.2.1 / u.2.1 * u.2.2 := by
            field_simp
            linarith [hx]
          exact Prod.ext (by simpa using e1) (Prod.ext (by simpa using e2) (by simpa using e3))
        · refine ⟨w.2.2 / u.2.2, ?_⟩
          have e1 : w.1 = w.2.2 / u.2.2 * u.1 := by
            field_simp
            linarith [hy]
          have e2 : w.2.1 = w.2.2 / u.2.2 * u.2.1 := by
            field_simp
            linarith [hx]
          have e3 : w.2.2 = w.2.2 / u.2.2 * u.2.2 := by field_simp
          exact Prod.ext (by simpa using e1) (Prod.ext (by simpa using e2) (by simpa using e3))
      obtain ⟨r, hr⟩ := hkey
      refine ⟨u, ?_⟩
      intro p hp
      rcases hp with hp | hp | hp
      · exact ⟨0, by simp [hp]⟩
      · refine ⟨1, ?_⟩
        rw [hp, vadd_eq_add, one_smul, hu]
        abel
      · refine ⟨r, ?_⟩
        simp only [Set.mem_singleton_iff] at hp
        rw [hp, vadd_eq_add, ← hr, hw]
        abel
  · rintro ⟨v, hv⟩
    obtain ⟨r2, hr2⟩ := hv p2 (Set.mem_insert_of_mem _ (Set.mem_insert _ _))
    obtain ⟨r3, hr3⟩ := hv p3 (Set.mem_insert_of_mem _ (Set.mem_insert_of_mem _ rfl))
    rw [vadd_eq_add] at hr2 hr3
    have h2 : p2 - p1 = r2 • v := by rw [hr2]; abel
    have h3 : p3 - p1 = r3 • v := by rw [hr3]; abel
    rw [h2, h3]
    simp only [cross, Prod.smul_fst, Prod.smul_snd, smul_eq_mul, Prod.mk.injEq]
    refine ⟨by ring, by ring, by ring⟩

end PointAlgebra

namespace PointAlgebra

/-- Recovering the half angle: if `x ∈ [0, π)`, the squared direction
`(A, B)` of angle `2x` is not `(1, 0)`, and the unit direction `(a, b)`
with `b ≥ 0` satisfies the bisection condition `a = a*A + b*B`, then
`(a, b)` is the direction of angle `x`. -/
theorem half_angle_recover {x a b A B : ℝ} (hx0 : 0 ≤ x) (hxpi : x < Real.pi)
    (hA : A = Real.cos (2 * x)) (hB : B = Real.sin (2 * x))
    (hab : a ^ 2 + b ^ 2 = 1) (hb : 0 ≤ b) (hcond : a = a * A + b * B)
    (hAB : ¬(A = 1 ∧ B = 0)) : Real.cos x = a ∧ Real.sin x = b := by
  set ca := Real.cos x with hca
  set sa := Real.sin x with hsa
  have hpyth : sa ^ 2 + ca ^ 2 = 1 := Real.sin_sq_add_cos_sq x
  have hsann : 0 ≤ sa := Real.sin_nonneg_of_nonneg_of_le_pi hx0 hxpi.le
  have hA' : A = 2 * ca ^ 2 - 1 := by rw [hA, Real.cos_two_mul]
  have hB' : B = 2 * sa * ca := by rw [hB, Real.sin_two_mul]
  by_cases hsa0 : sa = 0
  · exfalso
    have hx' : x = 0 := by
      have := Real.sin_eq_zero_iff_of_lt_of_lt
        (by linarith [Real.pi_pos] : -Real.pi < x) hxpi
      exact this.mp hsa0
    apply hAB
    constructor
    · rw [hA', hca, hx', Real.cos_zero]; norm_num
    · rw [hB', hsa0]; ring
  · have hsapos : 0 < sa := lt_of_le_of_ne hsann (Ne.symm hsa0)
    set k := a * ca + b * sa with hk
    have hk1 : a = ca * k := by
      rw [hA', hB'] at hcond
      rw [hk]
      linear_combination (1 / 2 : ℝ) * hcond
    have hstep : k = ca ^ 2 * k + b * sa := by
      rw [hk]
      linear_combination ca * hk1
    have hbsa : b * sa = k * sa ^ 2 := by
      linear_combination (-1 : ℝ) * hstep - k * hpyth
    have hk2 : b = sa * k := by
      refine mul_right_cancel₀ hsa0 ?_
      linear_combination hbsa
    have hkk : k ^ 2 = 1 := by
      linear_combination hab - (a + ca * k) * hk1 - (b + sa * k) * hk2 - k ^ 2 * hpyth
    have : k = 1 ∨ k = -1 := by
      have hfac : (k - 1) * (k + 1) = 0 := by linear_combination hkk
      rcases mul_eq_zero.mp hfac with h | h
      · left; linarith
      · right; linarith
    rcases this with h1 | h1
    · constructor
      · rw [hk1, h1]; ring
      · rw [hk2, h1]; ring
    · exfalso
      have : b = -sa := by rw [hk2, h1]; ring
      linarith
  
end PointAlgebra

/-! ### The geometry of the arc point solver -/

/-- The angle of the source after its sign adjustment: `atan2` shifted into
`[0, 2π)` by adding `2π` when negative. -/
noncomputable def thetaAdj (y x : ℝ) : ℝ :=
  if atan2 y x < 0 then atan2 y x + 2 * Real.pi else atan2 y x

/-- The point computed by the non-degenerate branch of
`find_point_at_fraction`, before rounding (same bindings as the source). -/
noncomputable def solveP (p1 p2 p3 : Point) (frac : ℝ) : Point :=
  let nv := cross (p2 - p1) (p3 - p1)
  let n := Real.sqrt (dot nv nv)
  let nh := n⁻¹ • nv
  let d := dot nh p1
  let c := d • nh
  let u := p1 - c
  let v0 := cross nh u
  let v := if dot (p2 - c) v0 < 0 then -v0 else v0
  let theta0 := atan2 (dot (p3 - c) v) (dot (p3 - c) u)
  let theta := if theta0 < 0 then theta0 + 2 * Real.pi else theta0
  c + Real.cos (frac * theta) • u + Real.sin (frac * theta) • v

/-- On non-degenerate input, `find_point_at_fraction` returns the rounded
`solveP` point. -/
theorem fpaf_ok_eq (p1 p2 p3 : Point) (frac : ℝ)
    (h : ¬ Real.sqrt (dot (cross (p2 - p1) (p3 - p1)) (cross (p2 - p1) (p3 - p1))) ≤ 0) :
    Utils.find_point_at_fraction p1 p2 p3 frac = Except.ok (roundPoint (solveP p1 p2 p3 frac)) := by
  simp only [Utils.find_point_at_fraction, solveP, roundPoint]
  rw [if_neg h]

namespace PointAlgebra

/-- Specification of the adjusted angle: it lies in `[0, 2π)` and its cosine
and sine recover the normalized coordinates of `t` in the orthogonal basis
`u`, `v` of the plane. -/
theorem theta_spec {u v t : Point}
    (hupos : 0 < dot u u) (htt : dot t t = dot u u)
    (hdect : (dot u u) • t = (dot t u) • u + (dot t v) • v) :
    Real.cos (thetaAdj (dot t v) (dot t u)) = dot t u / dot u u
    ∧ Real.sin (thetaAdj (dot t v) (dot t u)) = dot t v / dot u u
    ∧ 0 ≤ thetaAdj (dot t v) (dot t u)
    ∧ thetaAdj (dot t v) (dot t u) < 2 * Real.pi := by
  have hR : dot t u ^ 2 + dot t v ^ 2 = dot u u ^ 2 := by
    have h2 := congrArg (dot t) hdect
    rw [dot_smul_right, dot_add_right, dot_smul_right, dot_smul_right, htt] at h2
    linear_combination (-1 : ℝ) * h2
  have habs : Complex.abs ⟨dot t u, dot t v⟩ = dot u u := by
    rw [Complex.abs_apply, Complex.normSq_mk]
    have h3 : dot t u * dot t u + dot t v * dot t v = dot u u ^ 2 := by
      linear_combination hR
    rw [h3, Real.sqrt_sq hupos.le]
  have hz0 : (⟨dot t u, dot t v⟩ : ℂ) ≠ 0 := by
    intro h0
    rw [h0, map_zero] at habs
    exact hupos.ne' habs.symm
  have hcos0 : Real.cos (atan2 (dot t v) (dot t u)) = dot t u / dot u u := by
    rw [atan2, Complex.cos_arg hz0, habs]
  have hsin0 : Real.sin (atan2 (dot t v) (dot t u)) = dot t v / dot u u := by
    rw [atan2, Complex.sin_arg, habs]
  have harglow : -Real.pi < atan2 (dot t v) (dot t u) := Complex.neg_pi_lt_arg _
  have harghigh : atan2 (dot t v) (dot t u) ≤ Real.pi := Complex.arg_le_pi _
  unfold thetaAdj
  split_ifs with hneg
  · refine ⟨?_, ?_, ?_, ?_⟩
    · rw [Real.cos_add_two_pi]; exact hcos0
    · rw [Real.sin_add_two_pi]; exact hsin0
    · linarith [Real.pi_pos]
    · linarith
  · push_neg at hneg
    exact ⟨hcos0, hsin0, hneg, by linarith [Real.pi_pos]⟩

/-- Dividing an orthogonal-basis decomposition by the squared radius. -/
theorem div_decomp_point {u v w : Point} {r2 al be : ℝ} (hr2 : r2 ≠ 0)
    (h : r2 • w = al • u + be • v) :
    (al / r2) • u + (be / r2) • v = w := by
  have h1 : (al / r2) • u + (be / r2) • v = r2⁻¹ • (al • u + be • v) := by
    rw [smul_add, smul_smul, smul_smul]
    congr 1
    · congr 1
      rw [div_eq_mul_inv, mul_comm]
    · congr 1
      rw [div_eq_mul_inv, mul_comm]
  rw [h1, ← h, smul_smul, inv_mul_cancel₀ hr2, one_smul]

end PointAlgebra

namespace PointAlgebra

/-- Core endpoint computation: with an orthogonal basis `u`, `v` of the
circle plane (equal radii, `v` oriented towards `p2`), the solver expression
reaches `p3` at fraction 1 and, when `p2` is chord-equidistant from `p1`
and `p3`, reaches `p2` at fraction `1/2`. -/
theorem solveP_endpoint_core {p1 p2 p3 c u v s t : Point}
    (hu : u = p1 - c) (hs : s = p2 - c) (ht : t = p3 - c)
    (hupos : 0 < dot u u)
    (htt : dot t t = dot u u) (hss : dot s s = dot u u)
    (hdect : (dot u u) • t = (dot t u) • u + (dot t v) • v)
    (hdecs : (dot u u) • s = (dot s u) • u + (dot s v) • v)
    (hbv : 0 ≤ dot s v) (hp13 : p3 ≠ p1) :
    (c + Real.cos (1 * thetaAdj (dot t v) (dot t u)) • u
       + Real.sin (1 * thetaAdj (dot t v) (dot t u)) • v = p3)
    ∧ ((dot (p2 - p1) (p2 - p1) = dot (p2 - p3) (p2 - p3)) →
        c + Real.cos (1 / 2 * thetaAdj (dot t v) (dot t u)) • u
          + Real.sin (1 / 2 * thetaAdj (dot t v) (dot t u)) • v = p2)
    ∧ (c + Real.cos (0 * thetaAdj (dot t v) (dot t u)) • u
       + Real.sin (0 * thetaAdj (dot t v) (dot t u)) • v = p1) := by
  obtain ⟨hcos, hsin, hth0, hth2⟩ := theta_spec hupos htt hdect
  refine ⟨?_, ?_, ?_⟩
  · rw [one_mul, hcos, hsin, add_assoc,
      div_decomp_point hupos.ne' hdect, ht]
    abel
  · intro hchord
    have hsu_st : dot s u = dot s t := by
      have h1 : p2 - p1 = s - u := by rw [hs, hu]; abel
      have h2 : p2 - p3 = s - t := by rw [hs, ht]; abel
      rw [h1, h2] at hchord
      rw [dot_sub_left, dot_sub_right, dot_sub_right, dot_sub_left, dot_sub_right,
        dot_sub_right] at hchord
      rw [dot_comm u s, dot_comm t s] at hchord
      -- hchord : dot s s - dot s u - (dot s u - dot u u) = dot s s - dot s t - (dot s t - dot t t)
      rw [htt] at hchord
      linarith
    have hst : (dot u u) * dot s t = dot t u * dot s u + dot t v * dot s v := by
      have h3 := congrArg (dot s) hdect
      rw [dot_smul_right, dot_add_right, dot_smul_right, dot_smul_right] at h3
      exact h3
    rw [← hsu_st] at hst
    -- squared-sum fact for s
    have hsR : dot s u ^ 2 + dot s v ^ 2 = dot u u ^ 2 := by
      have h4 := congrArg (dot s) hdecs
      rw [dot_smul_right, dot_add_right, dot_smul_right, dot_smul_right, hss] at h4
      linear_combination (-1 : ℝ) * h4
    have hx0 : 0 ≤ 1 / 2 * thetaAdj (dot t v) (dot t u) := by linarith
    have hxpi : 1 / 2 * thetaAdj (dot t v) (dot t u) < Real.pi := by linarith
    have h2x : 2 * (1 / 2 * thetaAdj (dot t v) (dot t u)) = thetaAdj (dot t v) (dot t u) := by
      ring
    have hA : dot t u / dot u u = Real.cos (2 * (1 / 2 * thetaAdj (dot t v) (dot t u))) := by
      rw [h2x, hcos]
    have hB : dot t v / dot u u = Real.sin (2 * (1 / 2 * thetaAdj (dot t v) (dot t u))) := by
      rw [h2x, hsin]
    have hab : (dot s u / dot u u) ^ 2 + (dot s v / dot u u) ^ 2 = 1 := by
      rw [div_pow, div_pow, div_add_div_same, hsR]
      field_simp
    have hbq : 0 ≤ dot s v / dot u u := div_nonneg hbv hupos.le
    have hcond : dot s u / dot u u
        = dot s u / dot u u * (dot t u / dot u u)
          + dot s v / dot u u * (dot t v / dot u u) := by
      field_simp
      linear_combination dot u u * hst
    have hABne : ¬(dot t u / dot u u = 1 ∧ dot t v / dot u u = 0) := by
      rintro ⟨h1, h0⟩
      have htu : dot t u = dot u u := by
        field_simp at h1
        exact h1
      have htv : dot t v = 0 := by
        field_simp at h0
        exact h0
      have : (dot u u) • t = (dot u u) • u := by
        rw [hdect, htu, htv, zero_smul, add_zero]
      have htu2 : t = u := smul_right_injective Point hupos.ne' this
      apply hp13
      have : p3 - c = p1 - c := by rw [← ht, ← hu, htu2]
      have h5 := congrArg (fun w => w + c) this
      simpa using h5
    obtain ⟨hcx, hsx⟩ := half_angle_recover hx0 hxpi hA hB hab hbq hcond hABne
    rw [hcx, hsx, add_assoc, div_decomp_point hupos.ne' hdecs, hs]
    abel
  · rw [zero_mul, Real.cos_zero, Real.sin_zero, one_smul, zero_smul, add_zero, hu]
    abel

end PointAlgebra

namespace PointAlgebra

theorem dot_neg_left (a b : Point) : dot (-a) b = -dot a b := by
  simp only [dot, Prod.fst_neg, Prod.snd_neg]; ring

/-- The endpoint behaviour of the solver on any non-degenerate triple of
points of a common origin-centered sphere: fraction 0 gives `p1`, fraction
1 gives `p3`, and fraction `1/2` gives `p2` whenever `p2` is
chord-equidistant from `p1` and `p3` (up to the 4-decimal output
rounding applied by the solver). -/
theorem fpaf_special (p1 p2 p3 : Point)
    (hs2 : dot p1 p1 = dot p2 p2) (hs3 : dot p1 p1 = dot p3 p3)
    (hnv : cross (p2 - p1) (p3 - p1) ≠ ((0, 0, 0) : Point)) :
    Utils.find_point_at_fraction p1 p2 p3 0 = Except.ok (roundPoint p1)
    ∧ Utils.find_point_at_fraction p1 p2 p3 1 = Except.ok (roundPoint p3)
    ∧ (dot (p2 - p1) (p2 - p1) = dot (p2 - p3) (p2 - p3) →
        Utils.find_point_at_fraction p1 p2 p3 (1 / 2) = Except.ok (roundPoint p2)) := by
  have hQpos : 0 < dot (cross (p2 - p1) (p3 - p1)) (cross (p2 - p1) (p3 - p1)) :=
    dot_self_pos hnv
  have hnot : ¬ Real.sqrt (dot (cross (p2 - p1) (p3 - p1)) (cross (p2 - p1) (p3 - p1))) ≤ 0 :=
    not_le.mpr (Real.sqrt_pos.mpr hQpos)
  rw [fpaf_ok_eq p1 p2 p3 0 hnot, fpaf_ok_eq p1 p2 p3 1 hnot,
    fpaf_ok_eq p1 p2 p3 (1 / 2) hnot]
  suffices h : solveP p1 p2 p3 0 = p1 ∧ solveP p1 p2 p3 1 = p3
      ∧ (dot (p2 - p1) (p2 - p1) = dot (p2 - p3) (p2 - p3) → solveP p1 p2 p3 (1 / 2) = p2) by
    exact ⟨by rw [h.1], by rw [h.2.1], fun hc => by rw [h.2.2 hc]⟩
  simp only [solveP]
  set NV := cross (p2 - p1) (p3 - p1) with hNV
  set n := Real.sqrt (dot NV NV) with hndef
  set nh := n⁻¹ • NV with hnhdef
  set d := dot nh p1 with hddef
  set c := d • nh with hcdef
  set u := p1 - c with hudef
  set v0 := cross nh u with hv0def
  set s := p2 - c with hsdef
  set t := p3 - c with htdef
  have hnpos : 0 < n := Real.sqrt_pos.mpr hQpos
  have hn2 : n ^ 2 = dot NV NV := Real.sq_sqrt hQpos.le
  have haa : dot nh nh = 1 := by
    rw [hnhdef, dot_smul_left, dot_smul_right, ← hn2]
    field_simp
    ring
  have h12 : dot nh (p2 - p1) = 0 := by
    have h0 : dot NV (p2 - p1) = 0 := by rw [hNV]; exact dot_cross_left _ _
    rw [hnhdef, dot_smul_left, h0, mul_zero]
  have h13 : dot nh (p3 - p1) = 0 := by
    have h0 : dot NV (p3 - p1) = 0 := by rw [hNV]; exact dot_cross_right _ _
    rw [hnhdef, dot_smul_left, h0, mul_zero]
  have hau : dot nh u = 0 := by
    rw [hudef, dot_sub_right, hcdef, dot_smul_right, haa]
    rw [hddef]; ring
  have hat : dot nh t = 0 := by
    have h5 : t = (p3 - p1) + u := by rw [htdef, hudef]; abel
    rw [h5, dot_add_right, hau, h13]; ring
  have has : dot nh s = 0 := by
    have h5 : s = (p2 - p1) + u := by rw [hsdef, hudef]; abel
    rw [h5, dot_add_right, hau, h12]; ring
  have hcc : dot c c = d ^ 2 := by
    rw [hcdef, dot_smul_left, dot_smul_right, haa]; ring
  have hc1 : dot p1 c = d ^ 2 := by
    rw [hcdef, dot_smul_right, dot_comm p1 nh, ← hddef]; ring
  have hup : dot u u = dot p1 p1 - d ^ 2 := by
    rw [hudef, dot_sub_left, dot_sub_right, dot_sub_right, hc1, dot_comm c p1, hc1, hcc]
    ring
  have hnh_p3 : dot nh p3 = d := by
    rw [dot_sub_right] at h13
    rw [hddef]; linarith
  have hnh_p2 : dot nh p2 = d := by
    rw [dot_sub_right] at h12
    rw [hddef]; linarith
  have hc3 : dot p3 c = d ^ 2 := by
    rw [hcdef, dot_smul_right, dot_comm p3 nh, hnh_p3]; ring
  have hc2 : dot p2 c = d ^ 2 := by
    rw [hcdef, dot_smul_right, dot_comm p2 nh, hnh_p2]; ring
  have htp : dot t t = dot u u := by
    rw [htdef, dot_sub_left, dot_sub_right, dot_sub_right, hc3, dot_comm c p3, hc3, hcc,
      hup, ← hs3]
    ring
  have hsp : dot s s = dot u u := by
    rw [hsdef, dot_sub_left, dot_sub_right, dot_sub_right, hc2, dot_comm c p2, hc2, hcc,
      hup, ← hs2]
    ring
  have hupos : 0 < dot u u := by
    rcases eq_or_lt_of_le (dot_self_nonneg u) with h0 | h0
    · exfalso
      have hu0 : u = ((0, 0, 0) : Point) := (dot_self_eq_zero_iff u).mp h0.symm
      have hs0 : s = ((0, 0, 0) : Point) := by
        refine (dot_self_eq_zero_iff s).mp ?_
        rw [hsp]; exact h0.symm
      have h21 : p2 - p1 = s - u := by rw [hsdef, hudef]; abel
      have h210 : p2 - p1 = ((0, 0, 0) : Point) := by
        rw [h21, hu0, hs0]
        show ((0, 0, 0) : Point) - ((0, 0, 0) : Point) = ((0, 0, 0) : Point)
        norm_num
      apply hnv
      rw [hNV, h210]
      simp only [cross]
      norm_num
    · exact h0
  have hv0v0 : dot v0 v0 = dot u u := by
    rw [hv0def, cross_lagrange, haa, hau]; ring
  have hdect0 : (dot u u) • t = (dot t u) • u + (dot t v0) • v0 := by
    rw [hv0def]
    exact span_decomp t haa hau hat hupos.ne'
  have hdecs0 : (dot u u) • s = (dot s u) • u + (dot s v0) • v0 := by
    rw [hv0def]
    exact span_decomp s haa hau has hupos.ne'
  have hp13 : p3 ≠ p1 := by
    intro h0
    apply hnv
    rw [hNV, h0]
    simp only [cross, sub_self]
    norm_num
  rcases lt_or_le (dot s v0) 0 with hor | hor
  · simp only [if_pos hor]
    have hvv' : dot (-v0) (-v0) = dot u u := by
      rw [dot_neg_left, dot_neg_right, neg_neg, hv0v0]
    have hflipt : (dot t (-v0)) • (-v0) = (dot t v0) • v0 := by
      rw [dot_neg_right, neg_smul, smul_neg, neg_neg]
    have hflips : (dot s (-v0)) • (-v0) = (dot s v0) • v0 := by
      rw [dot_neg_right, neg_smul, smul_neg, neg_neg]
    have hdect' : (dot u u) • t = (dot t u) • u + (dot t (-v0)) • (-v0) := by
      rw [hflipt]; exact hdect0
    have hdecs' : (dot u u) • s = (dot s u) • u + (dot s (-v0)) • (-v0) := by
      rw [hflips]; exact hdecs0
    have hbv' : 0 ≤ dot s (-v0) := by rw [dot_neg_right]; linarith
    have core := solveP_endpoint_core hudef hsdef htdef hupos htp hsp
      hdect' hdecs' hbv' hp13
    rw [show (if atan2 (dot t (-v0)) (dot t u) < 0 then
        atan2 (dot t (-v0)) (dot t u) + 2 * Real.pi
      else atan2 (dot t (-v0)) (dot t u)) = thetaAdj (dot t (-v0)) (dot t u) from rfl]
    exact ⟨core.2.2, core.1, core.2.1⟩
  · simp only [if_neg (not_lt.mpr hor)]
    have core := solveP_endpoint_core hudef hsdef htdef hupos htp hsp
      hdect0 hdecs0 hor hp13
    rw [show (if atan2 (dot t v0) (dot t u) < 0 then
        atan2 (dot t v0) (dot t u) + 2 * Real.pi
      else atan2 (dot t v0) (dot t u)) = thetaAdj (dot t v0) (dot t u) from rfl]
    exact ⟨core.2.2, core.1, core.2.1⟩

end PointAlgebra

namespace PointAlgebra

/-- The solver raises its degeneracy error exactly on collinear (including
coincident) triples: the magnitude test `n ≤ 0` on the plane normal holds
iff the unnormalized normal vanishes iff the points are collinear. -/
theorem fpaf_error_iff (p1 p2 p3 : Point) (frac : ℝ) :
    Utils.find_point_at_fraction p1 p2 p3 frac
      = Except.error "Points are either collinear or share the same coordinates."
    ↔ Collinear ℝ ({p1, p2, p3} : Set Point) := by
  have hiff : Real.sqrt (dot (cross (p2 - p1) (p3 - p1)) (cross (p2 - p1) (p3 - p1))) ≤ 0
      ↔ Collinear ℝ ({p1, p2, p3} : Set Point) := by
    rw [← cross_eq_zero_iff_collinear]
    constructor
    · intro h
      have h0 : Real.sqrt (dot (cross (p2 - p1) (p3 - p1)) (cross (p2 - p1) (p3 - p1))) = 0 :=
        le_antisymm h (Real.sqrt_nonneg _)
      have h1 : dot (cross (p2 - p1) (p3 - p1)) (cross (p2 - p1) (p3 - p1)) ≤ 0 :=
        Real.sqrt_eq_zero'.mp h0
      exact (dot_self_eq_zero_iff _).mp (le_antisymm h1 (dot_self_nonneg _))
    · intro h
      rw [h]
      have : dot ((0, 0, 0) : Point) ((0, 0, 0) : Point) = 0 := by simp [dot]
      rw [this, Real.sqrt_zero]
  simp only [Utils.find_point_at_fraction]
  split_ifs with h
  · simp only [true_iff]
    exact hiff.mp h
  · constructor
    · intro habs
      exact absurd habs (by simp)
    · intro hc
      exact absurd (hiff.mpr hc) h

end PointAlgebra

/-! ### Evaluating the rounding on concrete values -/

theorem roundHalfEven_intCast (m : ℤ) : roundHalfEven (m : ℝ) = m := by
  unfold roundHalfEven
  rw [Int.floor_intCast]
  rw [if_pos]
  rw [sub_self]
  norm_num

theorem round4_eq_of_mul (x : ℝ) (m : ℤ) (h : x * 10000 = (m : ℝ)) :
    round4 x = (m : ℝ) / 10000 := by
  unfold round4
  rw [h, roundHalfEven_intCast]

theorem round4_zero : round4 0 = 0 := by
  rw [round4_eq_of_mul 0 0 (by norm_num)]
  norm_num

theorem round4_one : round4 1 = 1 := by
  rw [round4_eq_of_mul 1 10000 (by norm_num)]
  norm_num

theorem round4_neg_one : round4 (-1) = -1 := by
  rw [round4_eq_of_mul (-1) (-10000) (by norm_num)]
  norm_num

theorem sqrt_two_bounds : 7071 < 5000 * Real.sqrt 2 ∧ 5000 * Real.sqrt 2 < 7071.5 := by
  have h2 : Real.sqrt 2 ^ 2 = 2 := Real.sq_sqrt (by norm_num)
  have hpos : 0 < Real.sqrt 2 := Real.sqrt_pos.mpr (by norm_num)
  constructor
  · nlinarith [h2, hpos]
  · nlinarith [h2, hpos]

theorem round4_sqrt2_half : round4 (Real.sqrt 2 / 2) = 7071 / 10000 := by
  obtain ⟨hlo, hhi⟩ := sqrt_two_bounds
  have hx : Real.sqrt 2 / 2 * 10000 = 5000 * Real.sqrt 2 := by ring
  have hfl : ⌊(5000 : ℝ) * Real.sqrt 2⌋ = 7071 := by
    rw [Int.floor_eq_iff]
    constructor
    · push_cast; linarith
    · push_cast; linarith
  unfold round4 roundHalfEven
  rw [hx, hfl]
  rw [if_pos]
  · norm_num
  · push_cast
    linarith

theorem round4_neg_sqrt2_half : round4 (-(Real.sqrt 2 / 2)) = -(7071 / 10000) := by
  obtain ⟨hlo, hhi⟩ := sqrt_two_bounds
  have hx : -(Real.sqrt 2 / 2) * 10000 = -(5000 * Real.sqrt 2) := by ring
  have hfl : ⌊-((5000 : ℝ) * Real.sqrt 2)⌋ = -7072 := by
    rw [Int.floor_eq_iff]
    constructor
    · push_cast; linarith
    · push_cast; linarith
  have hcl : ⌈-((5000 : ℝ) * Real.sqrt 2)⌉ = -7071 := by
    rw [Int.ceil_eq_iff]
    constructor
    · push_cast; linarith
    · push_cast; linarith
  unfold round4 roundHalfEven
  rw [hx, hfl, hcl]
  rw [if_neg, if_pos]
  · norm_num
  · push_cast
    linarith
  · push_cast
    linarith

namespace PointAlgebra

/-- Concrete evaluation of the solver kernel for triples starting at
`(1,0,0)` whose plane is the xz-plane with normal `(0,-m,0)` and whose p2
lies in the upper half plane: the circle is the unit circle of the
xz-plane, parameterized by the adjusted angle of `p3`. -/
theorem solveP_xz (p2 p3 : Point) (m : ℝ) (hm : 0 < m)
    (hcross : cross (p2 - ((1 : ℝ), (0 : ℝ), (0 : ℝ))) (p3 - ((1 : ℝ), (0 : ℝ), (0 : ℝ)))
      = ((0 : ℝ), -m, (0 : ℝ)))
    (hzv : 0 ≤ p2.2.2) (frac : ℝ) :
    solveP ((1 : ℝ), (0 : ℝ), (0 : ℝ)) p2 p3 frac
      = (Real.cos (frac * thetaAdj p3.2.2 p3.1), 0,
         Real.sin (frac * thetaAdj p3.2.2 p3.1)) := by
  simp only [solveP]
  rw [hcross]
  have hsq : Real.sqrt (dot ((0 : ℝ), -m, (0 : ℝ)) ((0 : ℝ), -m, (0 : ℝ))) = m := by
    have h0 : dot ((0 : ℝ), -m, (0 : ℝ)) ((0 : ℝ), -m, (0 : ℝ)) = m ^ 2 := by
      simp [dot]
      ring
    rw [h0, Real.sqrt_sq hm.le]
  rw [hsq]
  have hnh : m⁻¹ • ((0 : ℝ), -m, (0 : ℝ)) = ((0 : ℝ), (-1 : ℝ), (0 : ℝ)) := by
    refine Prod.ext ?_ (Prod.ext ?_ ?_)
    · simp
    · show m⁻¹ * (-m) = -1
      field_simp
    · simp
  rw [hnh]
  have hd : dot ((0 : ℝ), (-1 : ℝ), (0 : ℝ)) ((1 : ℝ), (0 : ℝ), (0 : ℝ)) = 0 := by
    simp [dot]
  rw [hd, zero_smul]
  simp only [sub_zero]
  have hv0 : cross ((0 : ℝ), (-1 : ℝ), (0 : ℝ)) ((1 : ℝ), (0 : ℝ), (0 : ℝ))
      = ((0 : ℝ), (0 : ℝ), (1 : ℝ)) := by
    simp [cross]
  rw [hv0]
  have horient : dot p2 ((0 : ℝ), (0 : ℝ), (1 : ℝ)) = p2.2.2 := by
    simp [dot]
  have hifv : (if dot p2 ((0 : ℝ), (0 : ℝ), (1 : ℝ)) < 0
      then -((0 : ℝ), (0 : ℝ), (1 : ℝ)) else ((0 : ℝ), (0 : ℝ), (1 : ℝ)))
      = ((0 : ℝ), (0 : ℝ), (1 : ℝ)) := by
    exact if_neg (by rw [horient]; exact not_lt.mpr hzv)
  rw [hifv]
  have ht1 : dot p3 ((0 : ℝ), (0 : ℝ), (1 : ℝ)) = p3.2.2 := by
    simp [dot]
  have ht2 : dot p3 ((1 : ℝ), (0 : ℝ), (0 : ℝ)) = p3.1 := by
    simp [dot]
  rw [ht1, ht2]
  rw [show (if atan2 p3.2.2 p3.1 < 0 then atan2 p3.2.2 p3.1 + 2 * Real.pi
      else atan2 p3.2.2 p3.1) = thetaAdj p3.2.2 p3.1 from rfl]
  refine Prod.ext ?_ (Prod.ext ?_ ?_)
  · show 0 + Real.cos (frac * thetaAdj p3.2.2 p3.1) * 1 + Real.sin (frac * thetaAdj p3.2.2 p3.1) * 0 = _
    ring
  · show 0 + Real.cos (frac * thetaAdj p3.2.2 p3.1) * 0 + Real.sin (frac * thetaAdj p3.2.2 p3.1) * 0 = _
    ring
  · show 0 + Real.cos (frac * thetaAdj p3.2.2 p3.1) * 0 + Real.sin (frac * thetaAdj p3.2.2 p3.1) * 1 = _
    ring

/-- The rounded version of `solveP_xz` at the level of
`find_point_at_fraction`. -/
theorem fpaf_xz (p2 p3 : Point) (m : ℝ) (hm : 0 < m)
    (hcross : cross (p2 - ((1 : ℝ), (0 : ℝ), (0 : ℝ))) (p3 - ((1 : ℝ), (0 : ℝ), (0 : ℝ)))
      = ((0 : ℝ), -m, (0 : ℝ)))
    (hzv : 0 ≤ p2.2.2) (frac : ℝ) :
    Utils.find_point_at_fraction ((1 : ℝ), (0 : ℝ), (0 : ℝ)) p2 p3 frac
      = Except.ok (round4 (Real.cos (frac * thetaAdj p3.2.2 p3.1)), round4 0,
          round4 (Real.sin (frac * thetaAdj p3.2.2 p3.1))) := by
  have hnot : ¬ Real.sqrt (dot
      (cross (p2 - ((1 : ℝ), (0 : ℝ), (0 : ℝ))) (p3 - ((1 : ℝ), (0 : ℝ), (0 : ℝ))))
      (cross (p2 - ((1 : ℝ), (0 : ℝ), (0 : ℝ))) (p3 - ((1 : ℝ), (0 : ℝ), (0 : ℝ))))) ≤ 0 := by
    rw [hcross]
    have h0 : dot ((0 : ℝ), -m, (0 : ℝ)) ((0 : ℝ), -m, (0 : ℝ)) = m ^ 2 := by
      simp [dot]
      ring
    rw [h0, Real.sqrt_sq hm.le]
    exact not_le.mpr hm
  rw [fpaf_ok_eq _ _ _ _ hnot, solveP_xz p2 p3 m hm hcross hzv frac]
  rfl

end PointAlgebra

/-! ### Concrete angles and concrete triples -/

theorem atan2_zero_neg_one : atan2 0 (-1) = Real.pi := by
  unfold atan2
  have h : (⟨-1, 0⟩ : ℂ) = -1 := by
    refine Complex.ext ?_ ?_ <;> simp
  rw [h, Complex.arg_neg_one]

theorem thetaAdj_pi : thetaAdj 0 (-1) = Real.pi := by
  unfold thetaAdj
  rw [atan2_zero_neg_one, if_neg (not_lt.mpr Real.pi_pos.le)]

theorem atan2_neg_one_zero : atan2 (-1) 0 = -(Real.pi / 2) := by
  unfold atan2
  have h : (⟨0, -1⟩ : ℂ) = -Complex.I := by
    refine Complex.ext ?_ ?_ <;> simp
  rw [h, Complex.arg_neg_I]

theorem thetaAdj_three_pi_div_two : thetaAdj (-1) 0 = 3 * Real.pi / 2 := by
  unfold thetaAdj
  rw [atan2_neg_one_zero, if_pos (by linarith [Real.pi_pos])]
  ring

/-- The unnormalized plane normal of the reference triple
`(1,0,0), (0,0,1), (-1,0,0)`. -/
theorem cross_std :
    cross (((0 : ℝ), (0 : ℝ), (1 : ℝ)) - ((1 : ℝ), (0 : ℝ), (0 : ℝ)))
        (((-1 : ℝ), (0 : ℝ), (0 : ℝ)) - ((1 : ℝ), (0 : ℝ), (0 : ℝ)))
      = ((0 : ℝ), -2, (0 : ℝ)) := by
  simp only [cross, Prod.mk_sub_mk]
  norm_num

theorem not_collinear_std :
    ¬ Collinear ℝ ({((1 : ℝ), (0 : ℝ), (0 : ℝ)), ((0 : ℝ), (0 : ℝ), (1 : ℝ)),
      ((-1 : ℝ), (0 : ℝ), (0 : ℝ))} : Set Point) := by
  intro hc
  have h0 := (PointAlgebra.cross_eq_zero_iff_collinear _ _ _).mpr hc
  rw [cross_std] at h0
  have h1 := congrArg (fun p : Point => p.2.1) h0
  norm_num at h1

/-! ### Claims about the arc point solver -/

/-- C1 (amended): for every triple of distinct, non-collinear points on a
common origin-centered sphere, `find_point_at_fraction` returns `p1`
(rounded to the declared 4 decimals) at `frac = 0` and `p3` at `frac = 1`;
at `frac = 0.5` it returns `p2` provided `p2` is chord-equidistant from
`p1` and `p3` (i.e. `p2` is the midpoint of the arc, as at every call
site). Nothing is special-cased: all three fall out of the general
formula. -/
theorem C1_fraction_endpoints (p1 p2 p3 : Point)
    (hs2 : dot p1 p1 = dot p2 p2) (hs3 : dot p1 p1 = dot p3 p3)
    (hnc : ¬ Collinear ℝ ({p1, p2, p3} : Set Point)) :
    Utils.find_point_at_fraction p1 p2 p3 0 = Except.ok (roundPoint p1)
    ∧ Utils.find_point_at_fraction p1 p2 p3 1 = Except.ok (roundPoint p3)
    ∧ (dot (p2 - p1) (p2 - p1) = dot (p2 - p3) (p2 - p3) →
        Utils.find_point_at_fraction p1 p2 p3 (1 / 2) = Except.ok (roundPoint p2)) := by
  have hnv : cross (p2 - p1) (p3 - p1) ≠ ((0, 0, 0) : Point) := by
    intro h
    exact hnc ((PointAlgebra.cross_eq_zero_iff_collinear p1 p2 p3).mp h)
  exact PointAlgebra.fpaf_special p1 p2 p3 hs2 hs3 hnv

/-- Witness for C1 at the reference triple `(1,0,0), (0,0,1), (-1,0,0)`. -/
theorem C1_fraction_endpoints_witness :
    (dot ((1 : ℝ), (0 : ℝ), (0 : ℝ)) ((1 : ℝ), (0 : ℝ), (0 : ℝ))
       = dot ((0 : ℝ), (0 : ℝ), (1 : ℝ)) ((0 : ℝ), (0 : ℝ), (1 : ℝ)))
    ∧ (dot ((1 : ℝ), (0 : ℝ), (0 : ℝ)) ((1 : ℝ), (0 : ℝ), (0 : ℝ))
       = dot ((-1 : ℝ), (0 : ℝ), (0 : ℝ)) ((-1 : ℝ), (0 : ℝ), (0 : ℝ)))
    ∧ (¬ Collinear ℝ ({((1 : ℝ), (0 : ℝ), (0 : ℝ)), ((0 : ℝ), (0 : ℝ), (1 : ℝ)),
         ((-1 : ℝ), (0 : ℝ), (0 : ℝ))} : Set Point))
    ∧ (Utils.find_point_at_fraction ((1 : ℝ), (0 : ℝ), (0 : ℝ)) ((0 : ℝ), (0 : ℝ), (1 : ℝ))
         ((-1 : ℝ), (0 : ℝ), (0 : ℝ)) 0
        = Except.ok (roundPoint ((1 : ℝ), (0 : ℝ), (0 : ℝ)))
      ∧ Utils.find_point_at_fraction ((1 : ℝ), (0 : ℝ), (0 : ℝ)) ((0 : ℝ), (0 : ℝ), (1 : ℝ))
         ((-1 : ℝ), (0 : ℝ), (0 : ℝ)) 1
        = Except.ok (roundPoint ((-1 : ℝ), (0 : ℝ), (0 : ℝ)))
      ∧ (dot (((0 : ℝ), (0 : ℝ), (1 : ℝ)) - ((1 : ℝ), (0 : ℝ), (0 : ℝ)))
           (((0 : ℝ), (0 : ℝ), (1 : ℝ)) - ((1 : ℝ), (0 : ℝ), (0 : ℝ)))
         = dot (((0 : ℝ), (0 : ℝ), (1 : ℝ)) - ((-1 : ℝ), (0 : ℝ), (0 : ℝ)))
           (((0 : ℝ), (0 : ℝ), (1 : ℝ)) - ((-1 : ℝ), (0 : ℝ), (0 : ℝ))) →
          Utils.find_point_at_fraction ((1 : ℝ), (0 : ℝ), (0 : ℝ)) ((0 : ℝ), (0 : ℝ), (1 : ℝ))
            ((-1 : ℝ), (0 : ℝ), (0 : ℝ)) (1 / 2)
          = Except.ok (roundPoint ((0 : ℝ), (0 : ℝ), (1 : ℝ))))) :=
  ⟨by norm_num [dot], by norm_num [dot], not_collinear_std,
    C1_fraction_endpoints ((1 : ℝ), (0 : ℝ), (0 : ℝ)) ((0 : ℝ), (0 : ℝ), (1 : ℝ))
      ((-1 : ℝ), (0 : ℝ), (0 : ℝ)) (by norm_num [dot]) (by norm_num [dot])
      not_collinear_std⟩

/-- C1 counterexample: for `p1 = (1,0,0)`, `p2 = (√2/2, 0, √2/2)`,
`p3 = (-1,0,0)` — distinct, non-collinear, on the unit sphere — the solver
at `frac = 0.5` returns `(0,0,1)`, the midpoint of the arc, which differs
from `p2` and from `p2` rounded to 4 decimals. So the claim that `frac =
0.5` returns `p2` for every valid triple is false: it needs `p2` to be the
arc midpoint. -/
theorem C1_counterexample :
    (dot ((1 : ℝ), (0 : ℝ), (0 : ℝ)) ((1 : ℝ), (0 : ℝ), (0 : ℝ))
       = dot ((Real.sqrt 2 / 2 : ℝ), (0 : ℝ), (Real.sqrt 2 / 2 : ℝ))
           ((Real.sqrt 2 / 2 : ℝ), (0 : ℝ), (Real.sqrt 2 / 2 : ℝ)))
    ∧ (dot ((1 : ℝ), (0 : ℝ), (0 : ℝ)) ((1 : ℝ), (0 : ℝ), (0 : ℝ))
       = dot ((-1 : ℝ), (0 : ℝ), (0 : ℝ)) ((-1 : ℝ), (0 : ℝ), (0 : ℝ)))
    ∧ (¬ Collinear ℝ ({((1 : ℝ), (0 : ℝ), (0 : ℝ)),
         ((Real.sqrt 2 / 2 : ℝ), (0 : ℝ), (Real.sqrt 2 / 2 : ℝ)),
         ((-1 : ℝ), (0 : ℝ), (0 : ℝ))} : Set Point))
    ∧ Utils.find_point_at_fraction ((1 : ℝ), (0 : ℝ), (0 : ℝ))
        ((Real.sqrt 2 / 2 : ℝ), (0 : ℝ), (Real.sqrt 2 / 2 : ℝ))
        ((-1 : ℝ), (0 : ℝ), (0 : ℝ)) (1 / 2)
      = Except.ok ((0 : ℝ), (0 : ℝ), (1 : ℝ))
    ∧ ((0 : ℝ), (0 : ℝ), (1 : ℝ))
        ≠ roundPoint ((Real.sqrt 2 / 2 : ℝ), (0 : ℝ), (Real.sqrt 2 / 2 : ℝ))
    ∧ ((0 : ℝ), (0 : ℝ), (1 : ℝ))
        ≠ ((Real.sqrt 2 / 2 : ℝ), (0 : ℝ), (Real.sqrt 2 / 2 : ℝ)) := by
  have hs2pos : (0 : ℝ) < Real.sqrt 2 := Real.sqrt_pos.mpr (by norm_num)
  have hsq : Real.sqrt 2 ^ 2 = 2 := Real.sq_sqrt (by norm_num)
  have hcrossc : cross (((Real.sqrt 2 / 2 : ℝ), (0 : ℝ), (Real.sqrt 2 / 2 : ℝ))
        - ((1 : ℝ), (0 : ℝ), (0 : ℝ)))
      (((-1 : ℝ), (0 : ℝ), (0 : ℝ)) - ((1 : ℝ), (0 : ℝ), (0 : ℝ)))
      = ((0 : ℝ), -Real.sqrt 2, (0 : ℝ)) := by
    simp only [cross, Prod.mk_sub_mk]
    refine Prod.ext ?_ (Prod.ext ?_ ?_) <;> norm_num
  refine ⟨?_, ?_, ?_, ?_, ?_, ?_⟩
  · simp only [dot]
    nlinarith [hsq]
  · norm_num [dot]
  · intro hc
    have h0 := (PointAlgebra.cross_eq_zero_iff_collinear _ _ _).mpr hc
    rw [hcrossc] at h0
    have h1 := congrArg (fun p : Point => p.2.1) h0
    simp only at h1
    rw [neg_eq_zero] at h1
    exact hs2pos.ne' h1
  · have happ := PointAlgebra.fpaf_xz ((Real.sqrt 2 / 2 : ℝ), (0 : ℝ), (Real.sqrt 2 / 2 : ℝ))
      ((-1 : ℝ), (0 : ℝ), (0 : ℝ)) (Real.sqrt 2) hs2pos hcrossc
      (by positivity) (1 / 2)
    rw [happ]
    rw [show (((-1 : ℝ), (0 : ℝ), (0 : ℝ)) : Point).2.2 = (0 : ℝ) from rfl,
      show (((-1 : ℝ), (0 : ℝ), (0 : ℝ)) : Point).1 = (-1 : ℝ) from rfl,
      thetaAdj_pi]
    have hhalf : (1 / 2 : ℝ) * Real.pi = Real.pi / 2 := by ring
    rw [hhalf, Real.cos_pi_div_two, Real.sin_pi_div_two, round4_zero, round4_one]
  · intro h0
    have h1 := congrArg (fun p : Point => p.1) h0
    simp only [roundPoint] at h1
    rw [round4_sqrt2_half] at h1
    norm_num at h1
  · intro h0
    have h1 := congrArg (fun p : Point => p.1) h0
    simp only at h1
    exact absurd h1.symm (by positivity)

/-- C2: the solver raises `ValueError` ("Points are either collinear or
share the same coordinates.") exactly when the three points are collinear
or two of them coincide — detected through the magnitude test `n ≤ 0` on
the computed plane normal, which vanishes exactly on such triples. -/
theorem C2_degenerate_error (p1 p2 p3 : Point) (frac : ℝ) :
    Utils.find_point_at_fraction p1 p2 p3 frac
      = Except.error "Points are either collinear or share the same coordinates."
    ↔ Collinear ℝ ({p1, p2, p3} : Set Point) :=
  PointAlgebra.fpaf_error_iff p1 p2 p3 frac

/-- Witness for C2: coincident points (p, p, q) do raise, and the
non-collinear reference triple does not. -/
theorem C2_degenerate_error_witness :
    Utils.find_point_at_fraction ((1 : ℝ), (0 : ℝ), (0 : ℝ)) ((1 : ℝ), (0 : ℝ), (0 : ℝ))
      ((-1 : ℝ), (0 : ℝ), (0 : ℝ)) (1 / 2)
      = Except.error "Points are either collinear or share the same coordinates."
    ∧ ¬ (Utils.find_point_at_fraction ((1 : ℝ), (0 : ℝ), (0 : ℝ)) ((0 : ℝ), (0 : ℝ), (1 : ℝ))
      ((-1 : ℝ), (0 : ℝ), (0 : ℝ)) (1 / 2)
      = Except.error "Points are either collinear or share the same coordinates.") := by
  constructor
  · refine (C2_degenerate_error _ _ _ _).mpr ?_
    have h0 : ({((1 : ℝ), (0 : ℝ), (0 : ℝ)), ((1 : ℝ), (0 : ℝ), (0 : ℝ)),
        ((-1 : ℝ), (0 : ℝ), (0 : ℝ))} : Set Point)
        = {((1 : ℝ), (0 : ℝ), (0 : ℝ)), ((-1 : ℝ), (0 : ℝ), (0 : ℝ))} := by
      simp [Set.insert_comm, Set.insert_idem]
    rw [h0]
    exact collinear_pair ℝ _ _
  · intro h
    exact not_collinear_std ((C2_degenerate_error _ _ _ _).mp h)

/-- C3: on the great circle through the pole given by `p1 = (1,0,0)`,
`p2 = (0,0,1)`, `p3 = (-1,0,0)`, the solver extrapolates around the full
circle: fraction 1.5 gives `(0,0,-1)`, fraction 2.0 gives `p1` again, and
fraction 2.5 gives `p2` — the full period is fraction 2.0. -/
theorem C3_extrapolation :
    Utils.find_point_at_fraction ((1 : ℝ), (0 : ℝ), (0 : ℝ)) ((0 : ℝ), (0 : ℝ), (1 : ℝ))
      ((-1 : ℝ), (0 : ℝ), (0 : ℝ)) 1.5 = Except.ok ((0 : ℝ), (0 : ℝ), (-1 : ℝ))
    ∧ Utils.find_point_at_fraction ((1 : ℝ), (0 : ℝ), (0 : ℝ)) ((0 : ℝ), (0 : ℝ), (1 : ℝ))
      ((-1 : ℝ), (0 : ℝ), (0 : ℝ)) 2.0 = Except.ok ((1 : ℝ), (0 : ℝ), (0 : ℝ))
    ∧ Utils.find_point_at_fraction ((1 : ℝ), (0 : ℝ), (0 : ℝ)) ((0 : ℝ), (0 : ℝ), (1 : ℝ))
      ((-1 : ℝ), (0 : ℝ), (0 : ℝ)) 2.5 = Except.ok ((0 : ℝ), (0 : ℝ), (1 : ℝ)) := by
  have hproj2 : (((-1 : ℝ), (0 : ℝ), (0 : ℝ)) : Point).2.2 = (0 : ℝ) := rfl
  have hproj1 : (((-1 : ℝ), (0 : ℝ), (0 : ℝ)) : Point).1 = (-1 : ℝ) := rfl
  refine ⟨?_, ?_, ?_⟩
  · rw [PointAlgebra.fpaf_xz ((0 : ℝ), (0 : ℝ), (1 : ℝ)) ((-1 : ℝ), (0 : ℝ), (0 : ℝ)) 2
      (by norm_num) cross_std (by norm_num) 1.5]
    rw [hproj2, hproj1, thetaAdj_pi]
    have h15 : (1.5 : ℝ) * Real.pi = Real.pi + Real.pi / 2 := by
      have h0 : (1.5 : ℝ) = 3 / 2 := by norm_num
      rw [h0]; ring
    rw [h15, Real.cos_add, Real.sin_add, Real.cos_pi, Real.sin_pi, Real.cos_pi_div_two,
      Real.sin_pi_div_two]
    norm_num [round4_zero, round4_neg_one]
  · rw [PointAlgebra.fpaf_xz ((0 : ℝ), (0 : ℝ), (1 : ℝ)) ((-1 : ℝ), (0 : ℝ), (0 : ℝ)) 2
      (by norm_num) cross_std (by norm_num) 2.0]
    rw [hproj2, hproj1, thetaAdj_pi]
    have h20 : (2.0 : ℝ) * Real.pi = 2 * Real.pi := by norm_num
    rw [h20, Real.cos_two_pi, Real.sin_two_pi]
    norm_num [round4_zero, round4_one]
  · rw [PointAlgebra.fpaf_xz ((0 : ℝ), (0 : ℝ), (1 : ℝ)) ((-1 : ℝ), (0 : ℝ), (0 : ℝ)) 2
      (by norm_num) cross_std (by norm_num) 2.5]
    rw [hproj2, hproj1, thetaAdj_pi]
    have h25 : (2.5 : ℝ) * Real.pi = Real.pi / 2 + 2 * Real.pi := by
      have h0 : (2.5 : ℝ) = 5 / 2 := by norm_num
      rw [h0]; ring
    rw [h25, Real.cos_add_two_pi, Real.sin_add_two_pi, Real.cos_pi_div_two,
      Real.sin_pi_div_two]
    norm_num [round4_zero, round4_one]

/-- C9: sub-arc consistency at the reference configuration. The point at
fraction 0.75 along `(1,0,0), (0,0,1), (-1,0,0)` is
`pstar = (-0.7071, 0, 0.7071)` (rounded to 4 decimals), and the nested call
`find_point_at_fraction((1,0,0), pstar, (0,0,-1), 2/6)` returns exactly
`(0,0,1)`, the original `p2`, despite the rounding of `pstar`. -/
theorem C9_subarc_consistency :
    Utils.find_point_at_fraction ((1 : ℝ), (0 : ℝ), (0 : ℝ)) ((0 : ℝ), (0 : ℝ), (1 : ℝ))
      ((-1 : ℝ), (0 : ℝ), (0 : ℝ)) 0.75
      = Except.ok ((-(7071 / 10000) : ℝ), (0 : ℝ), (7071 / 10000 : ℝ))
    ∧ Utils.find_point_at_fraction ((1 : ℝ), (0 : ℝ), (0 : ℝ))
      ((-(7071 / 10000) : ℝ), (0 : ℝ), (7071 / 10000 : ℝ)) ((0 : ℝ), (0 : ℝ), (-1 : ℝ)) (2 / 6)
      = Except.ok ((0 : ℝ), (0 : ℝ), (1 : ℝ)) := by
  constructor
  · rw [PointAlgebra.fpaf_xz ((0 : ℝ), (0 : ℝ), (1 : ℝ)) ((-1 : ℝ), (0 : ℝ), (0 : ℝ)) 2
      (by norm_num) cross_std (by norm_num) 0.75]
    rw [show (((-1 : ℝ), (0 : ℝ), (0 : ℝ)) : Point).2.2 = (0 : ℝ) from rfl,
      show (((-1 : ℝ), (0 : ℝ), (0 : ℝ)) : Point).1 = (-1 : ℝ) from rfl, thetaAdj_pi]
    have h75 : (0.75 : ℝ) * Real.pi = Real.pi - Real.pi / 4 := by
      have h0 : (0.75 : ℝ) = 3 / 4 := by norm_num
      rw [h0]; ring
    rw [h75, Real.cos_pi_sub, Real.sin_pi_sub, Real.cos_pi_div_four, Real.sin_pi_div_four,
      round4_neg_sqrt2_half, round4_sqrt2_half, round4_zero]
  · have hcross9 : cross (((-(7071 / 10000) : ℝ), (0 : ℝ), (7071 / 10000 : ℝ))
        - ((1 : ℝ), (0 : ℝ), (0 : ℝ)))
        (((0 : ℝ), (0 : ℝ), (-1 : ℝ)) - ((1 : ℝ), (0 : ℝ), (0 : ℝ)))
        = ((0 : ℝ), -(24142 / 10000), (0 : ℝ)) := by
      simp only [cross, Prod.mk_sub_mk]
      norm_num
    rw [PointAlgebra.fpaf_xz ((-(7071 / 10000) : ℝ), (0 : ℝ), (7071 / 10000 : ℝ))
      ((0 : ℝ), (0 : ℝ), (-1 : ℝ)) (24142 / 10000) (by norm_num) hcross9 (by norm_num) (2 / 6)]
    rw [show (((0 : ℝ), (0 : ℝ), (-1 : ℝ)) : Point).2.2 = (-1 : ℝ) from rfl,
      show (((0 : ℝ), (0 : ℝ), (-1 : ℝ)) : Point).1 = (0 : ℝ) from rfl,
      thetaAdj_three_pi_div_two]
    have h26 : (2 / 6 : ℝ) * (3 * Real.pi / 2) = Real.pi / 2 := by ring
    rw [h26, Real.cos_pi_div_two, Real.sin_pi_div_two]
    norm_num [round4_zero, round4_one]

/-- C10: the two shipped implementations of the arc solver —
`find_point_at_fraction` of `utils.py` and of `utilities.py` — are
extensionally equal: on every input they raise the same error or return
the same rounded point. -/
theorem C10_solver_implementations_equal (p1 p2 p3 : Point) (frac : ℝ) :
    Utils.find_point_at_fraction p1 p2 p3 frac
      = Utilities.find_point_at_fraction p1 p2 p3 frac := rfl

namespace CalcPositions

/-! ### Properties of the duplicate-dropping and lookup operations -/

theorem ddf_congr_seen : ∀ (l : List (String × Point)) (s1 s2 : List String),
    (∀ x, x ∈ s1 ↔ x ∈ s2) →
    dropDuplicatesFirst l s1 = dropDuplicatesFirst l s2
  | [], _, _, _ => rfl
  | r :: rest, s1, s2, h => by
    unfold dropDuplicatesFirst
    by_cases hr : r.1 ∈ s1
    · rw [if_pos hr, if_pos ((h r.1).mp hr)]
      exact ddf_congr_seen rest s1 s2 h
    · rw [if_neg hr, if_neg (fun hx => hr ((h r.1).mpr hx))]
      congr 1
      refine ddf_congr_seen rest (r.1 :: s1) (r.1 :: s2) ?_
      intro x
      simp only [List.mem_cons]
      constructor
      · rintro (hx | hx)
        · exact Or.inl hx
        · exact Or.inr ((h x).mp hx)
      · rintro (hx | hx)
        · exact Or.inl hx
        · exact Or.inr ((h x).mpr hx)

theorem labelsOf_append (a b : Table) : labelsOf (a ++ b) = labelsOf a ++ labelsOf b := by
  unfold labelsOf
  exact List.map_append Prod.fst a b

theorem ddf_append : ∀ (df rest : Table) (seen : List String),
    (labelsOf df).Nodup → (∀ x ∈ labelsOf df, x ∉ seen) →
    dropDuplicatesFirst (df ++ rest) seen
      = df ++ dropDuplicatesFirst rest (labelsOf df ++ seen)
  | [], rest, seen, _, _ => by
    simp only [List.nil_append, labelsOf]
    rfl
  | r :: df', rest, seen, hnd, hdisj => by
    have hr1 : r.1 ∉ seen := hdisj r.1 (by simp [labelsOf])
    have hnd' : (labelsOf df').Nodup := by
      have : labelsOf (r :: df') = r.1 :: labelsOf df' := rfl
      rw [this] at hnd
      exact hnd.of_cons
    have hr1' : r.1 ∉ labelsOf df' := by
      have : labelsOf (r :: df') = r.1 :: labelsOf df' := rfl
      rw [this] at hnd
      exact (List.nodup_cons.mp hnd).1
    have hdisj' : ∀ x ∈ labelsOf df', x ∉ r.1 :: seen := by
      intro x hx
      simp only [List.mem_cons]
      rintro (hx' | hx')
      · exact hr1' (hx' ▸ hx)
      · exact hdisj x (show x ∈ labelsOf (r :: df') from List.mem_cons.mpr (Or.inr hx)) hx'
    have hcongr : dropDuplicatesFirst rest (labelsOf df' ++ r.1 :: seen)
        = dropDuplicatesFirst rest (labelsOf (r :: df') ++ seen) := by
      refine ddf_congr_seen rest _ _ ?_
      intro x
      have hlr : labelsOf (r :: df') = r.1 :: labelsOf df' := rfl
      rw [hlr]
      simp only [List.mem_append, List.mem_cons]
      tauto
    rw [List.cons_append]
    rw [show dropDuplicatesFirst (r :: (df' ++ rest)) seen
        = if r.1 ∈ seen then dropDuplicatesFirst (df' ++ rest) seen
          else r :: dropDuplicatesFirst (df' ++ rest) (r.1 :: seen) from rfl]
    rw [if_neg hr1]
    rw [ddf_append df' rest (r.1 :: seen) hnd' hdisj']
    rw [hcongr]
    rfl

theorem ddf_all_seen : ∀ (l : List (String × Point)) (seen : List String),
    (∀ r ∈ l, r.1 ∈ seen) → dropDuplicatesFirst l seen = []
  | [], _, _ => rfl
  | r :: rest, seen, h => by
    unfold dropDuplicatesFirst
    rw [if_pos (h r (by simp))]
    exact ddf_all_seen rest seen fun q hq => h q (by simp [hq])

theorem ddf_nodup : ∀ (l : List (String × Point)) (seen : List String),
    (labelsOf (dropDuplicatesFirst l seen)).Nodup
    ∧ ∀ x ∈ labelsOf (dropDuplicatesFirst l seen), x ∉ seen
  | [], seen => by
    constructor
    · exact List.nodup_nil
    · intro x hx
      simp [labelsOf, dropDuplicatesFirst] at hx
  | r :: rest, seen => by
    unfold dropDuplicatesFirst
    split_ifs with hr
    · exact ddf_nodup rest seen
    · obtain ⟨ih1, ih2⟩ := ddf_nodup rest (r.1 :: seen)
      have hl : labelsOf (r :: dropDuplicatesFirst rest (r.1 :: seen))
          = r.1 :: labelsOf (dropDuplicatesFirst rest (r.1 :: seen)) := rfl
      constructor
      · rw [hl, List.nodup_cons]
        refine ⟨?_, ih1⟩
        intro hx
        exact ih2 r.1 hx (by simp)
      · rw [hl]
        intro x hx
        rcases List.mem_cons.mp hx with hx' | hx'
        · exact hx' ▸ hr
        · intro hxs
          exact ih2 x hx' (by simp [hxs])

theorem ddf_mem_labels : ∀ (l : List (String × Point)) (seen : List String) (x : String),
    x ∈ labelsOf (dropDuplicatesFirst l seen) ↔ x ∈ labelsOf l ∧ x ∉ seen
  | [], seen, x => by
    simp [labelsOf, dropDuplicatesFirst]
  | r :: rest, seen, x => by
    unfold dropDuplicatesFirst
    have hl0 : labelsOf (r :: rest) = r.1 :: labelsOf rest := rfl
    split_ifs with hr
    · rw [ddf_mem_labels rest seen x, hl0]
      simp only [List.mem_cons]
      constructor
      · rintro ⟨hx, hs⟩
        exact ⟨Or.inr hx, hs⟩
      · rintro ⟨hx | hx, hs⟩
        · exact absurd (hx ▸ hr) hs
        · exact ⟨hx, hs⟩
    · have hl : labelsOf (r :: dropDuplicatesFirst rest (r.1 :: seen))
          = r.1 :: labelsOf (dropDuplicatesFirst rest (r.1 :: seen)) := rfl
      rw [hl, hl0]
      simp only [List.mem_cons]
      rw [ddf_mem_labels rest (r.1 :: seen) x]
      simp only [List.mem_cons]
      constructor
      · rintro (hx | ⟨hx, hs⟩)
        · exact ⟨Or.inl hx, hx ▸ hr⟩
        · push_neg at hs
          exact ⟨Or.inr hx, hs.2⟩
      · rintro ⟨hx | hx, hs⟩
        · exact Or.inl hx
        · by_cases hxr : x = r.1
          · exact Or.inl hxr
          · exact Or.inr ⟨hx, by simp [hxr, hs]⟩

theorem filter_eq_nil_of_not_mem (df : Table) (label : String)
    (h : label ∉ labelsOf df) : df.filter (fun r => r.1 == label) = [] := by
  induction df with
  | nil => rfl
  | cons r rest ih =>
    have h1 : r.1 ≠ label := by
      intro h0
      exact h (by simp [labelsOf, h0])
    have h2 : label ∉ labelsOf rest := by
      intro h0
      exact h (by simp [labelsOf] at h0 ⊢; exact Or.inr h0)
    rw [List.filter_cons]
    rw [if_neg (by simp [h1])]
    exact ih h2

theorem get_xyz_not_mem (df : Table) (label : String) (h : label ∉ labelsOf df) :
    get_xyz df label = Except.error "Expected one row of data but got 0" := by
  unfold get_xyz
  rw [filter_eq_nil_of_not_mem df label h]
  rfl

theorem get_xyz_ok_mem_label (df : Table) (label : String) (p : Point)
    (h : get_xyz df label = Except.ok p) : label ∈ labelsOf df := by
  by_contra h0
  rw [get_xyz_not_mem df label h0] at h
  exact absurd h (by simp)

theorem get_xyz_append_right (df e : Table) (label : String)
    (h : label ∉ labelsOf e) : get_xyz (df ++ e) label = get_xyz df label := by
  unfold get_xyz
  rw [List.filter_append, filter_eq_nil_of_not_mem e label h, List.append_nil]

theorem filter_of_mem_nodup : ∀ (df : Table), (labelsOf df).Nodup →
    ∀ (label : String) (p : Point), (label, p) ∈ df →
    df.filter (fun r => r.1 == label) = [(label, p)]
  | [], _, label, p, hmem => by simp at hmem
  | r :: rest, hnd, label, p, hmem => by
    have hl0 : labelsOf (r :: rest) = r.1 :: labelsOf rest := rfl
    rw [hl0, List.nodup_cons] at hnd
    rcases List.mem_cons.mp hmem with hr | hr
    · have h1 : r.1 = label := by rw [← hr]
      have h2 : label ∉ labelsOf rest := h1 ▸ hnd.1
      rw [List.filter_cons, if_pos (by simp [h1]), filter_eq_nil_of_not_mem rest label h2,
        ← hr]
    · have h2 : label ∈ labelsOf rest := by
        simp only [labelsOf, List.mem_map]
        exact ⟨(label, p), hr, rfl⟩
      have h1 : r.1 ≠ label := fun h0 => hnd.1 (h0 ▸ h2)
      rw [List.filter_cons, if_neg (by simp [h1])]
      exact filter_of_mem_nodup rest hnd.2 label p hr

theorem get_xyz_of_mem_nodup (df : Table) (hnd : (labelsOf df).Nodup)
    (label : String) (p : Point) (hmem : (label, p) ∈ df) :
    get_xyz df label = Except.ok p := by
  unfold get_xyz
  rw [filter_of_mem_nodup df hnd label p hmem]
  rfl

end CalcPositions

namespace CalcPositions

/-! ### Properties of the per-contour computation -/

theorem mem_labels_dictUpsert (d : List (String × Point)) (k : String) (v : Point)
    (x : String) : x ∈ labelsOf (dictUpsert d k v) ↔ x ∈ labelsOf d ∨ x = k := by
  unfold dictUpsert
  split_ifs with h
  · have hl : labelsOf (d.map (fun r => if r.1 == k then (r.1, v) else r)) = labelsOf d := by
      unfold labelsOf
      rw [List.map_map]
      refine List.map_congr_left ?_
      intro r _
      simp only [Function.comp]
      split_ifs <;> rfl
    rw [hl]
    constructor
    · exact Or.inl
    · rintro (hx | hx)
      · exact hx
      · subst hx
        rcases List.any_eq_true.mp h with ⟨r, hrmem, hrk⟩
        have hr1 : r.1 = x := by simpa using hrk
        exact List.mem_map.mpr ⟨r, hrmem, hr1⟩
  · rw [labelsOf_append]
    simp [labelsOf]

theorem ccp_ok_labels (p1 p2 p3 : Point) (len : ℕ) :
    ∀ (pairs : List (ℕ × String)) (acc d : List (String × Point)),
    computeContourPoints p1 p2 p3 len pairs acc = Except.ok d →
    ∀ x, x ∈ labelsOf d ↔ x ∈ labelsOf acc ∨ x ∈ pairs.map Prod.snd
  | [], acc, d, h, x => by
    unfold computeContourPoints at h
    simp only [Except.ok.injEq] at h
    subst h
    simp
  | (i, label) :: rest, acc, d, h, x => by
    unfold computeContourPoints at h
    split at h
    · exact absurd h (by simp)
    · rename_i pt hpt
      have ih := ccp_ok_labels p1 p2 p3 len rest (dictUpsert acc label pt) d h x
      rw [ih, mem_labels_dictUpsert]
      simp only [List.map_cons, List.mem_cons]
      tauto

end CalcPositions

namespace CalcPositions

/-- Full specification of one successful contour step: the table grows by
rows with fresh labels, lookups of already-present labels are unchanged,
every label of the contour is present afterwards, and re-running the step
on any table that extends the result is a no-op. -/
theorem contourStep_full (df : Table) (contour : List String) (mid : ℕ) (d' : Table)
    (hnd : (labelsOf df).Nodup)
    (h : contourStep df contour mid = Except.ok d') :
    (labelsOf d').Nodup
    ∧ (∃ e, d' = df ++ e ∧ ∀ x ∈ labelsOf e, x ∉ labelsOf df)
    ∧ (∀ l ∈ labelsOf df, get_xyz d' l = get_xyz df l)
    ∧ (∀ l ∈ contour, l ∈ labelsOf d')
    ∧ (∀ dff : Table, (labelsOf dff).Nodup →
        (∀ (l : String) (p : Point), get_xyz df l = Except.ok p → get_xyz dff l = Except.ok p) →
        (∀ l ∈ labelsOf d', l ∈ labelsOf dff) →
        contourStep dff contour mid = Except.ok dff) := by
  unfold contourStep at h
  split at h
  · exact absurd h (by simp)
  rename_i p1 hp1
  split at h
  · exact absurd h (by simp)
  rename_i p2 hp2
  split at h
  · exact absurd h (by simp)
  rename_i p3 hp3
  split at h
  · exact absurd h (by simp)
  rename_i ps hps
  simp only [Except.ok.injEq] at h
  subst h
  have hdisj0 : ∀ x ∈ labelsOf df, x ∉ ([] : List String) := by simp
  have happ := ddf_append df ps [] hnd hdisj0
  obtain ⟨hnde, hnotseen⟩ := ddf_nodup ps (labelsOf df ++ [])
  have hdisj' : ∀ x ∈ labelsOf (dropDuplicatesFirst ps (labelsOf df ++ [])),
      x ∉ labelsOf df := by
    intro x hx h0
    exact hnotseen x hx (by simp [h0])
  have hndfull : (labelsOf (dropDuplicatesFirst (df ++ ps) [])).Nodup := by
    rw [happ, labelsOf_append]
    refine List.Nodup.append hnd hnde ?_
    intro x hx1 hx2
    exact hdisj' x hx2 hx1
  have hpres : ∀ l ∈ labelsOf df,
      get_xyz (dropDuplicatesFirst (df ++ ps) []) l = get_xyz df l := by
    intro l hl
    rw [happ]
    exact get_xyz_append_right df _ l (fun hx => hdisj' l hx hl)
  have hmemlab : ∀ l ∈ contour, l ∈ labelsOf (dropDuplicatesFirst (df ++ ps) []) := by
    intro l hl
    rw [ddf_mem_labels]
    refine ⟨?_, by simp⟩
    rw [labelsOf_append]
    rcases (ccp_ok_labels p1 p2 p3 contour.length contour.enum [] ps hps l).mpr
        (Or.inr (by rw [List.enum_map_snd]; exact hl)) with hps'
    exact List.mem_append.mpr (Or.inr hps')
  refine ⟨hndfull, ⟨dropDuplicatesFirst ps (labelsOf df ++ []), happ, hdisj'⟩, hpres,
    hmemlab, ?_⟩
  intro dff hndff hlook hsub
  have h1' := hlook _ _ hp1
  have h2' := hlook _ _ hp2
  have h3' := hlook _ _ hp3
  unfold contourStep
  rw [h1', h2', h3']
  show (match computeContourPoints p1 p2 p3 contour.length contour.enum [] with
    | Except.error e => Except.error e
    | Except.ok other_ps => Except.ok (dropDuplicatesFirst (dff ++ other_ps) []))
    = Except.ok dff
  rw [hps]
  show Except.ok (dropDuplicatesFirst (dff ++ ps) []) = Except.ok dff
  have hps_sub : ∀ r ∈ ps, r.1 ∈ labelsOf dff ++ ([] : List String) := by
    intro r hr
    have hrl : r.1 ∈ labelsOf ps := List.mem_map.mpr ⟨r, hr, rfl⟩
    have hrd' : r.1 ∈ labelsOf (dropDuplicatesFirst (df ++ ps) []) := by
      rw [ddf_mem_labels]
      refine ⟨?_, by simp⟩
      rw [labelsOf_append]
      exact List.mem_append.mpr (Or.inr hrl)
    exact List.mem_append.mpr (Or.inl (hsub r.1 hrd'))
  rw [ddf_append dff ps [] hndff (by simp), ddf_all_seen ps _ hps_sub, List.append_nil]

/-- The same specification at the level of `add_points_along_contour`. -/
theorem step_full (df : Table) (contour : List String) (d' : Table)
    (hnd : (labelsOf df).Nodup)
    (h : add_points_along_contour df contour = Except.ok d') :
    (labelsOf d').Nodup
    ∧ (∃ e, d' = df ++ e ∧ ∀ x ∈ labelsOf e, x ∉ labelsOf df)
    ∧ (∀ l ∈ labelsOf df, get_xyz d' l = get_xyz df l)
    ∧ (∀ l ∈ contour, l ∈ labelsOf d')
    ∧ (∀ dff : Table, (labelsOf dff).Nodup →
        (∀ (l : String) (p : Point), get_xyz df l = Except.ok p → get_xyz dff l = Except.ok p) →
        (∀ l ∈ labelsOf d', l ∈ labelsOf dff) →
        add_points_along_contour dff contour = Except.ok dff) := by
  unfold add_points_along_contour at h
  by_cases h21 : contour.length = 21
  · rw [if_pos h21] at h
    obtain ⟨a, b, c, dd, rerun⟩ := contourStep_full df contour 10 d' hnd h
    refine ⟨a, b, c, dd, ?_⟩
    intro dff h1 h2 h3
    unfold add_points_along_contour
    rw [if_pos h21]
    exact rerun dff h1 h2 h3
  · rw [if_neg h21] at h
    by_cases h17 : contour.length = 17
    · rw [if_pos h17] at h
      obtain ⟨a, b, c, dd, rerun⟩ := contourStep_full df contour 8 d' hnd h
      refine ⟨a, b, c, dd, ?_⟩
      intro dff h1 h2 h3
      unfold add_points_along_contour
      rw [if_neg h21, if_pos h17]
      exact rerun dff h1 h2 h3
    · rw [if_neg h17] at h
      exact absurd h (by simp)

end CalcPositions

namespace CalcPositions

/-- Master specification of the full expansion loop: labels stay unique,
the table only grows, lookups of labels present before the run are
unchanged, and re-running the same catalog on any lookup-preserving
extension of the result (in particular on the result itself) is a no-op. -/
theorem expandAll_spec : ∀ (catalog : List (List String)) (df d' : Table),
    (labelsOf df).Nodup → expand_all df catalog = Except.ok d' →
    (labelsOf d').Nodup
    ∧ (∃ e, d' = df ++ e)
    ∧ (∀ l ∈ labelsOf df, get_xyz d' l = get_xyz df l)
    ∧ (∀ dff : Table, (labelsOf dff).Nodup →
        (∀ l ∈ labelsOf d', l ∈ labelsOf dff) →
        (∀ (l : String) (p : Point), get_xyz d' l = Except.ok p → get_xyz dff l = Except.ok p) →
        expand_all dff catalog = Except.ok dff)
  | [], df, d', hnd, h => by
    unfold expand_all at h
    simp only [Except.ok.injEq] at h
    subst h
    refine ⟨hnd, ⟨[], by simp⟩, fun l _ => rfl, ?_⟩
    intro dff hndff _ _
    rfl
  | contour :: rest, df, d', hnd, h => by
    unfold expand_all at h
    split at h
    · exact absurd h (by simp)
    rename_i d1 hd1
    obtain ⟨hnd1, ⟨e1, he1, hdisj1⟩, hpres1, hmem1, hrerun1⟩ :=
      step_full df contour d1 hnd hd1
    obtain ⟨hnd', ⟨e2, he2⟩, hpres2, hrerun2⟩ := expandAll_spec rest d1 d' hnd1 h
    have hsub1 : ∀ l ∈ labelsOf d1, l ∈ labelsOf d' := by
      intro l hl
      rw [he2, labelsOf_append]
      exact List.mem_append.mpr (Or.inl hl)
    have hlook1 : ∀ (l : String) (p : Point),
        get_xyz d1 l = Except.ok p → get_xyz d' l = Except.ok p := by
      intro l p hl
      have hmem : l ∈ labelsOf d1 := get_xyz_ok_mem_label d1 l p hl
      rw [hpres2 l hmem]
      exact hl
    refine ⟨hnd', ⟨e1 ++ e2, by rw [he2, he1, List.append_assoc]⟩, ?_, ?_⟩
    · intro l hl
      have hl1 : l ∈ labelsOf d1 := by
        rw [he1, labelsOf_append]
        exact List.mem_append.mpr (Or.inl hl)
      rw [hpres2 l hl1]
      exact hpres1 l hl
    · intro dff hndff hsub hlook
      have hstep : add_points_along_contour dff contour = Except.ok dff := by
        refine hrerun1 dff hndff ?_ ?_
        · intro l p hl
          have hmem : l ∈ labelsOf df := get_xyz_ok_mem_label df l p hl
          have hl1 : l ∈ labelsOf d1 := by
            rw [he1, labelsOf_append]
            exact List.mem_append.mpr (Or.inl hmem)
          refine hlook l p ?_
          rw [hpres2 l hl1, hpres1 l hmem]
          exact hl
        · intro l hl
          exact hsub l (hsub1 l hl)
      have hrest : expand_all dff rest = Except.ok dff := by
        refine hrerun2 dff hndff ?_ hlook
        intro l hl
        exact hsub l hl
      unfold expand_all
      rw [hstep]
      exact hrest

end CalcPositions

open CalcPositions in
/-- C4: during contour expansion a label already present in the table is
never overwritten — lookups of previously present labels are unchanged by
a full expansion run — and running the full expansion a second time over
the same contour catalog returns the very same table. -/
theorem C4_first_writer_wins (df : Table) (catalog : List (List String)) (d' : Table)
    (hnd : (labelsOf df).Nodup) (h : expand_all df catalog = Except.ok d') :
    (∀ l ∈ labelsOf df, get_xyz d' l = get_xyz df l)
    ∧ expand_all d' catalog = Except.ok d' := by
  obtain ⟨hnd', ⟨e, he⟩, hpres, hrerun⟩ := expandAll_spec catalog df d' hnd h
  exact ⟨hpres, hrerun d' hnd' (fun l hl => hl) (fun l p hp => hp)⟩

open CalcPositions in
/-- Witness for C4 on the seed table of the `Nz-T10-Iz-T9` convention with
the empty catalog. -/
theorem C4_first_writer_wins_witness :
    (labelsOf (seed_table "Nz-T10-Iz-T9")).Nodup
    ∧ expand_all (seed_table "Nz-T10-Iz-T9") [] = Except.ok (seed_table "Nz-T10-Iz-T9")
    ∧ ((∀ l ∈ labelsOf (seed_table "Nz-T10-Iz-T9"),
          get_xyz (seed_table "Nz-T10-Iz-T9") l = get_xyz (seed_table "Nz-T10-Iz-T9") l)
       ∧ expand_all (seed_table "Nz-T10-Iz-T9") [] = Except.ok (seed_table "Nz-T10-Iz-T9")) :=
  ⟨by decide, rfl,
    C4_first_writer_wins (seed_table "Nz-T10-Iz-T9") [] (seed_table "Nz-T10-Iz-T9")
      (by decide) rfl⟩

open CalcPositions in
/-- C6: a contour whose length is neither 17 nor 21 makes the expansion
step fail with the invalid-length `ValueError` naming the offending
length, before touching the table. -/
theorem C6_invalid_contour_length (df : Table) (contour : List String)
    (h21 : contour.length ≠ 21) (h17 : contour.length ≠ 17) :
    add_points_along_contour df contour
      = Except.error ("contour must be of len 17 or 21 but is " ++ toString contour.length) := by
  unfold add_points_along_contour
  rw [if_neg h21, if_neg h17]

open CalcPositions in
/-- Witness for C6: a contour of length 40. -/
theorem C6_invalid_contour_length_witness :
    (List.replicate 40 "X").length ≠ 21 ∧ (List.replicate 40 "X").length ≠ 17
    ∧ add_points_along_contour [] (List.replicate 40 "X")
      = Except.error "contour must be of len 17 or 21 but is 40" := by
  refine ⟨by decide, by decide, ?_⟩
  rw [C6_invalid_contour_length [] (List.replicate 40 "X") (by decide) (by decide)]
  rfl

namespace CalcPositions

/-- If one of the three reference labels of a contour is missing from the
table, the contour step fails. -/
theorem contourStep_error_of_missing (df : Table) (contour : List String) (mid : ℕ)
    (l : String)
    (hl : l = contour.headD "" ∨ l = contour.getD mid "" ∨ l = contour.getLastD "")
    (hmem : l ∉ labelsOf df) :
    ∃ msg, contourStep df contour mid = Except.error msg := by
  unfold contourStep
  cases hg1 : get_xyz df (contour.headD "") with
  | error e => exact ⟨e, rfl⟩
  | ok q1 =>
    cases hg2 : get_xyz df (contour.getD mid "") with
    | error e => exact ⟨e, rfl⟩
    | ok q2 =>
      cases hg3 : get_xyz df (contour.getLastD "") with
      | error e => exact ⟨e, rfl⟩
      | ok q3 =>
        exfalso
        rcases hl with hl | hl | hl
        · exact hmem (hl ▸ get_xyz_ok_mem_label df _ q1 hg1)
        · exact hmem (hl ▸ get_xyz_ok_mem_label df _ q2 hg2)
        · exact hmem (hl ▸ get_xyz_ok_mem_label df _ q3 hg3)

end CalcPositions

open CalcPositions in
/-- C7: the three arc-defining reference points of a contour are looked up
under the labels `contour[0]`, `contour[midpoint]` (index 10 for length-21
contours, 8 for length-17 contours) and `contour[-1]`; if any of these is
absent from the table, the expansion step fails instead of proceeding. -/
theorem C7_missing_reference_point (df : Table) (contour : List String) :
    (contour.length = 21 →
      ∀ l, (l = contour.headD "" ∨ l = contour.getD 10 "" ∨ l = contour.getLastD "") →
        l ∉ labelsOf df →
        ∃ msg, add_points_along_contour df contour = Except.error msg)
    ∧ (contour.length = 17 →
      ∀ l, (l = contour.headD "" ∨ l = contour.getD 8 "" ∨ l = contour.getLastD "") →
        l ∉ labelsOf df →
        ∃ msg, add_points_along_contour df contour = Except.error msg) := by
  constructor
  · intro hlen l hl hmem
    obtain ⟨msg, hmsg⟩ := contourStep_error_of_missing df contour 10 l hl hmem
    refine ⟨msg, ?_⟩
    unfold add_points_along_contour
    rw [if_pos hlen]
    exact hmsg
  · intro hlen l hl hmem
    obtain ⟨msg, hmsg⟩ := contourStep_error_of_missing df contour 8 l hl hmem
    refine ⟨msg, ?_⟩
    unfold add_points_along_contour
    have h21 : contour.length ≠ 21 := by rw [hlen]; decide
    rw [if_neg h21, if_pos hlen]
    exact hmsg

open CalcPositions in
/-- Witness for C7: a length-21 contour of labels absent from the seed
table. -/
theorem C7_missing_reference_point_witness :
    (List.replicate 21 "X").length = 21
    ∧ ("X" = (List.replicate 21 "X").headD ""
        ∨ "X" = (List.replicate 21 "X").getD 10 ""
        ∨ "X" = (List.replicate 21 "X").getLastD "")
    ∧ "X" ∉ labelsOf (seed_table "Nz-T10-Iz-T9")
    ∧ (∃ msg, add_points_along_contour (seed_table "Nz-T10-Iz-T9") (List.replicate 21 "X")
        = Except.error msg) :=
  ⟨by decide, by decide, by decide,
    (C7_missing_reference_point (seed_table "Nz-T10-Iz-T9") (List.replicate 21 "X")).1
      (by decide) "X" (by decide) (by decide)⟩

namespace CalcPositions

theorem ddf_id_of_disjoint : ∀ (l : List (String × Point)) (seen : List String),
    (labelsOf l).Nodup → (∀ x ∈ labelsOf l, x ∉ seen) →
    dropDuplicatesFirst l seen = l
  | [], _, _, _ => rfl
  | r :: rest, seen, hnd, hdisj => by
    have hl0 : labelsOf (r :: rest) = r.1 :: labelsOf rest := rfl
    rw [hl0, List.nodup_cons] at hnd
    unfold dropDuplicatesFirst
    rw [if_neg (hdisj r.1 (by rw [hl0]; simp))]
    congr 1
    refine ddf_id_of_disjoint rest (r.1 :: seen) hnd.2 ?_
    intro x hx
    simp only [List.mem_cons]
    rintro (hx' | hx')
    · exact hnd.1 (hx' ▸ hx)
    · exact hdisj x (by rw [hl0]; simp [hx]) hx'

/-- A successful fix-up run appends exactly the freshly labeled rows and
keeps old lookups intact. -/
theorem fixup_spec (df : Table) (fm : ℝ) (d' : Table) (hnd : (labelsOf df).Nodup)
    (h : fpz_fixup df fm = Except.ok d') :
    ∃ ps, fpz_manual_ps fm = Except.ok ps
      ∧ d' = dropDuplicatesFirst (df ++ ps) []
      ∧ (labelsOf d').Nodup
      ∧ (∀ l ∈ labelsOf df, get_xyz d' l = get_xyz df l)
      ∧ (∀ l ∈ labelsOf df, l ∈ labelsOf d') := by
  unfold fpz_fixup at h
  split at h
  · exact absurd h (by simp)
  rename_i ps hps
  simp only [Except.ok.injEq] at h
  subst h
  have happ := ddf_append df ps [] hnd (by simp)
  obtain ⟨hnde, hnotseen⟩ := ddf_nodup ps (labelsOf df ++ [])
  have hdisj' : ∀ x ∈ labelsOf (dropDuplicatesFirst ps (labelsOf df ++ [])),
      x ∉ labelsOf df := by
    intro x hx h0
    exact hnotseen x hx (by simp [h0])
  refine ⟨ps, hps, rfl, ?_, ?_, ?_⟩
  · rw [happ, labelsOf_append]
    refine List.Nodup.append hnd hnde ?_
    intro x hx1 hx2
    exact hdisj' x hx2 hx1
  · intro l hl
    rw [happ]
    exact get_xyz_append_right df _ l (fun hx => hdisj' l hx hl)
  · intro l hl
    rw [happ, labelsOf_append]
    exact List.mem_append.mpr (Or.inl hl)

/-- Inversion of a successful `fpz_manual_ps` run: the eight rows are the
eight labels paired with direct solver calls on the seed arcs through the
vertex at the two fractions beyond 1. -/
theorem fpz_manual_ps_inv (fm : ℝ) (ps : List (String × Point))
    (h : fpz_manual_ps fm = Except.ok ps) :
    ∃ q1 q2 q3 q4 q5 q6 q7 q8,
      Utils.find_point_at_fraction front Cz back (1 + 1 * fm) = Except.ok q1
      ∧ Utils.find_point_at_fraction front Cz back (1 + 2 * fm) = Except.ok q2
      ∧ Utils.find_point_at_fraction back Cz front (1 + 1 * fm) = Except.ok q3
      ∧ Utils.find_point_at_fraction back Cz front (1 + 2 * fm) = Except.ok q4
      ∧ Utils.find_point_at_fraction left Cz right (1 + 1 * fm) = Except.ok q5
      ∧ Utils.find_point_at_fraction left Cz right (1 + 2 * fm) = Except.ok q6
      ∧ Utils.find_point_at_fraction right Cz left (1 + 1 * fm) = Except.ok q7
      ∧ Utils.find_point_at_fraction right Cz left (1 + 2 * fm) = Except.ok q8
      ∧ ps = [("OIz", q1), ("Iz", q2), ("NFpz", q3), ("Nz", q4),
              ("T10h", q5), ("T10", q6), ("T9h", q7), ("T9", q8)] := by
  unfold fpz_manual_ps at h
  split at h
  · exact absurd h (by simp)
  rename_i q1 h1
  split at h
  · exact absurd h (by simp)
  rename_i q2 h2
  split at h
  · exact absurd h (by simp)
  rename_i q3 h3
  split at h
  · exact absurd h (by simp)
  rename_i q4 h4
  split at h
  · exact absurd h (by simp)
  rename_i q5 h5
  split at h
  · exact absurd h (by simp)
  rename_i q6 h6
  split at h
  · exact absurd h (by simp)
  rename_i q7 h7
  split at h
  · exact absurd h (by simp)
  rename_i q8 h8
  simp only [Except.ok.injEq] at h
  exact ⟨q1, q2, q3, q4, q5, q6, q7, q8, h1, h2, h3, h4, h5, h6, h7, h8, h.symm⟩

end CalcPositions

open CalcPositions in
/-- C5: for both equator conventions the expansion starts from exactly the
five seed rows — the four labels of the chosen equator at the front, right,
back and left unit points, plus "Cz" at the vertex `(0,0,1)` — and after
any run of the orchestration the label "Cz" still resolves to `(0,0,1)`,
whatever contours are processed. -/
theorem C5_seeds_and_Cz :
    seed_table "Nz-T10-Iz-T9"
      = [("Nz", ((0 : ℝ), (1 : ℝ), (0 : ℝ))), ("T10", ((1 : ℝ), (0 : ℝ), (0 : ℝ))),
         ("Iz", ((0 : ℝ), (-1 : ℝ), (0 : ℝ))), ("T9", ((-1 : ℝ), (0 : ℝ), (0 : ℝ))),
         ("Cz", ((0 : ℝ), (0 : ℝ), (1 : ℝ)))]
    ∧ seed_table "Fpz-T8-Oz-T7"
      = [("Fpz", ((0 : ℝ), (1 : ℝ), (0 : ℝ))), ("T8", ((1 : ℝ), (0 : ℝ), (0 : ℝ))),
         ("Oz", ((0 : ℝ), (-1 : ℝ), (0 : ℝ))), ("T7", ((-1 : ℝ), (0 : ℝ), (0 : ℝ))),
         ("Cz", ((0 : ℝ), (0 : ℝ), (1 : ℝ)))]
    ∧ (∀ (catalog : List (List String)) (t : Table),
        calc_positions_nz catalog = Except.ok t →
        get_xyz t "Cz" = Except.ok ((0 : ℝ), (0 : ℝ), (1 : ℝ)))
    ∧ (∀ (catalog : List (List String)) (t : Table),
        calc_positions_fpz catalog = Except.ok t →
        get_xyz t "Cz" = Except.ok ((0 : ℝ), (0 : ℝ), (1 : ℝ))) := by
  have hseediz : get_xyz (seed_table "Nz-T10-Iz-T9") "Cz"
      = Except.ok ((0 : ℝ), (0 : ℝ), (1 : ℝ)) := rfl
  have hseedfpz : get_xyz (seed_table "Fpz-T8-Oz-T7") "Cz"
      = Except.ok ((0 : ℝ), (0 : ℝ), (1 : ℝ)) := rfl
  refine ⟨rfl, rfl, ?_, ?_⟩
  · intro catalog t h
    unfold calc_positions_nz at h
    obtain ⟨_, _, hpres, _⟩ := expandAll_spec catalog _ t (by decide) h
    rw [hpres "Cz" (by decide)]
    exact hseediz
  · intro catalog t h
    unfold calc_positions_fpz at h
    split at h
    · exact absurd h (by simp)
    rename_i df1 hdf1
    split at h
    · exact absurd h (by simp)
    rename_i df2 hdf2
    obtain ⟨hnd1, _, hpres1, _⟩ := expandAll_spec _ _ df1 (by decide) hdf1
    have hcz1 : get_xyz df1 "Cz" = Except.ok ((0 : ℝ), (0 : ℝ), (1 : ℝ)) := by
      rw [hpres1 "Cz" (by decide)]
      exact hseedfpz
    have hmem1 : "Cz" ∈ labelsOf df1 := get_xyz_ok_mem_label df1 "Cz" _ hcz1
    obtain ⟨ps, hps, hdf2eq, hnd2, hpres2, hsup2⟩ := fixup_spec df1 _ df2 hnd1 hdf2
    have hcz2 : get_xyz df2 "Cz" = Except.ok ((0 : ℝ), (0 : ℝ), (1 : ℝ)) := by
      rw [hpres2 "Cz" hmem1]
      exact hcz1
    have hmem2 : "Cz" ∈ labelsOf df2 := hsup2 "Cz" hmem1
    obtain ⟨_, _, hpres3, _⟩ := expandAll_spec _ _ t hnd2 h
    rw [hpres3 "Cz" hmem2]
    exact hcz2

open CalcPositions in
/-- Witness for C5 with the empty catalog on the `Nz-T10-Iz-T9`
convention. -/
theorem C5_seeds_and_Cz_witness :
    calc_positions_nz [] = Except.ok (seed_table "Nz-T10-Iz-T9")
    ∧ get_xyz (seed_table "Nz-T10-Iz-T9") "Cz" = Except.ok ((0 : ℝ), (0 : ℝ), (1 : ℝ)) :=
  ⟨rfl, C5_seeds_and_Cz.2.2.1 [] (seed_table "Nz-T10-Iz-T9") rfl⟩

namespace CalcPositions

theorem mem_ddf_of_nodup : ∀ (l : List (String × Point)) (seen : List String),
    (labelsOf l).Nodup → ∀ r ∈ l, r.1 ∉ seen → r ∈ dropDuplicatesFirst l seen
  | [], _, _, r, hr, _ => by simp at hr
  | r0 :: rest, seen, hnd, r, hr, hrs => by
    have hl0 : labelsOf (r0 :: rest) = r0.1 :: labelsOf rest := rfl
    rw [hl0, List.nodup_cons] at hnd
    unfold dropDuplicatesFirst
    rcases List.mem_cons.mp hr with hr' | hr'
    · subst hr'
      rw [if_neg hrs]
      exact List.mem_cons_self r _
    · split_ifs with h0
      · exact mem_ddf_of_nodup rest seen hnd.2 r hr' hrs
      · refine List.mem_cons_of_mem r0 ?_
        refine mem_ddf_of_nodup rest (r0.1 :: seen) hnd.2 r hr' ?_
        simp only [List.mem_cons]
        rintro (hx | hx)
        · refine hnd.1 ?_
          rw [← hx]
          exact List.mem_map.mpr ⟨r, hr', rfl⟩
        · exact hrs hx

end CalcPositions

open CalcPositions in
/-- C8: for the `Fpz-T8-Oz-T7` convention, once the catalog minus its last
five contours has been expanded, exactly the eight labels OIz, Iz, NFpz,
Nz, T10h, T10, T9h, T9 are computed by direct `find_point_at_fraction`
calls on arcs built from the raw seed tuples through the vertex, at
fractions `1 + k * (1/len(catalog[0]))` for `k ∈ {1, 2}` (beyond 1,
exercising extrapolation), and these points are merged into the table
before the last five contours are expanded. -/
theorem C8_fpz_manual_fixup (catalog : List (List String)) (t : Table)
    (h : calc_positions_fpz catalog = Except.ok t) :
    ∃ df1 ps df2,
      expand_all (seed_table "Fpz-T8-Oz-T7") (catalog.take (catalog.length - 5))
        = Except.ok df1
      ∧ fpz_manual_ps (1 / ((catalog.headD []).length : ℝ)) = Except.ok ps
      ∧ df2 = dropDuplicatesFirst (df1 ++ ps) []
      ∧ expand_all df2 (catalog.drop (catalog.length - 5)) = Except.ok t
      ∧ labelsOf ps = ["OIz", "Iz", "NFpz", "Nz", "T10h", "T10", "T9h", "T9"]
      ∧ (∃ q1 q2 q3 q4 q5 q6 q7 q8,
          Utils.find_point_at_fraction front Cz back
            (1 + 1 * (1 / ((catalog.headD []).length : ℝ))) = Except.ok q1
          ∧ Utils.find_point_at_fraction front Cz back
            (1 + 2 * (1 / ((catalog.headD []).length : ℝ))) = Except.ok q2
          ∧ Utils.find_point_at_fraction back Cz front
            (1 + 1 * (1 / ((catalog.headD []).length : ℝ))) = Except.ok q3
          ∧ Utils.find_point_at_fraction back Cz front
            (1 + 2 * (1 / ((catalog.headD []).length : ℝ))) = Except.ok q4
          ∧ Utils.find_point_at_fraction left Cz right
            (1 + 1 * (1 / ((catalog.headD []).length : ℝ))) = Except.ok q5
          ∧ Utils.find_point_at_fraction left Cz right
            (1 + 2 * (1 / ((catalog.headD []).length : ℝ))) = Except.ok q6
          ∧ Utils.find_point_at_fraction right Cz left
            (1 + 1 * (1 / ((catalog.headD []).length : ℝ))) = Except.ok q7
          ∧ Utils.find_point_at_fraction right Cz left
            (1 + 2 * (1 / ((catalog.headD []).length : ℝ))) = Except.ok q8
          ∧ ps = [("OIz", q1), ("Iz", q2), ("NFpz", q3), ("Nz", q4),
                  ("T10h", q5), ("T10", q6), ("T9h", q7), ("T9", q8)])
      ∧ (∀ (l : String) (p : Point), (l, p) ∈ ps → l ∉ labelsOf df1 →
          get_xyz df2 l = Except.ok p) := by
  unfold calc_positions_fpz at h
  split at h
  · exact absurd h (by simp)
  rename_i df1 hdf1
  split at h
  · exact absurd h (by simp)
  rename_i df2 hdf2
  obtain ⟨hnd1, _, _, _⟩ := expandAll_spec _ _ df1 (by decide) hdf1
  obtain ⟨ps, hps, hdf2eq, hnd2, hpres2, hsup2⟩ := fixup_spec df1 _ df2 hnd1 hdf2
  obtain ⟨q1, q2, q3, q4, q5, q6, q7, q8, e1, e2, e3, e4, e5, e6, e7, e8, hpsl⟩ :=
    fpz_manual_ps_inv _ ps hps
  have hlabels : labelsOf ps = ["OIz", "Iz", "NFpz", "Nz", "T10h", "T10", "T9h", "T9"] := by
    rw [hpsl]
    rfl
  refine ⟨df1, ps, df2, hdf1, hps, hdf2eq, h, hlabels,
    ⟨q1, q2, q3, q4, q5, q6, q7, q8, e1, e2, e3, e4, e5, e6, e7, e8, hpsl⟩, ?_⟩
  intro l p hmem hnot
  have hndps : (labelsOf ps).Nodup := by
    rw [hlabels]
    decide
  have happ := ddf_append df1 ps [] hnd1 (by simp)
  have hmem2 : (l, p) ∈ dropDuplicatesFirst ps (labelsOf df1 ++ []) := by
    refine mem_ddf_of_nodup ps _ hndps (l, p) hmem ?_
    simp only [List.mem_append]
    rintro (hx | hx)
    · exact hnot hx
    · simp at hx
  have hmemdf2 : (l, p) ∈ df2 := by
    rw [hdf2eq, happ]
    exact List.mem_append.mpr (Or.inr hmem2)
  exact get_xyz_of_mem_nodup df2 hnd2 l p hmemdf2

namespace CalcPositions

/-- Composing a successful early phase, fix-up and late phase into a
successful `Fpz-T8-Oz-T7` run. -/
theorem calc_fpz_ok_of (catalog : List (List String)) (df1 df2 t : Table)
    (h1 : expand_all (seed_table "Fpz-T8-Oz-T7") (catalog.take (catalog.length - 5))
      = Except.ok df1)
    (h2 : fpz_fixup df1 (1 / ((catalog.headD []).length : ℝ)) = Except.ok df2)
    (h3 : expand_all df2 (catalog.drop (catalog.length - 5)) = Except.ok t) :
    calc_positions_fpz catalog = Except.ok t := by
  unfold calc_positions_fpz
  rw [h1]
  show (match fpz_fixup df1 (1 / ((catalog.headD []).length : ℝ)) with
    | Except.error e => Except.error e
    | Except.ok df2 => expand_all df2 (catalog.drop (catalog.length - 5)))
    = Except.ok t
  rw [h2]
  exact h3

theorem roundPoint_0n0 : roundPoint ((0 : ℝ), (-1 : ℝ), (0 : ℝ)) = ((0 : ℝ), (-1 : ℝ), (0 : ℝ)) := by
  simp only [roundPoint]
  norm_num [round4_zero, round4_neg_one]

theorem roundPoint_0p0 : roundPoint ((0 : ℝ), (1 : ℝ), (0 : ℝ)) = ((0 : ℝ), (1 : ℝ), (0 : ℝ)) := by
  simp only [roundPoint]
  norm_num [round4_zero, round4_one]

theorem roundPoint_p00 : roundPoint ((1 : ℝ), (0 : ℝ), (0 : ℝ)) = ((1 : ℝ), (0 : ℝ), (0 : ℝ)) := by
  simp only [roundPoint]
  norm_num [round4_zero, round4_one]

theorem roundPoint_n00 : roundPoint ((-1 : ℝ), (0 : ℝ), (0 : ℝ)) = ((-1 : ℝ), (0 : ℝ), (0 : ℝ)) := by
  simp only [roundPoint]
  norm_num [round4_zero, round4_neg_one]

theorem fpaf_fb_one : Utils.find_point_at_fraction front Cz back 1
    = Except.ok ((0 : ℝ), (-1 : ℝ), (0 : ℝ)) := by
  have hc : cross (Cz - front) (back - front) = ((2 : ℝ), (0 : ℝ), (0 : ℝ)) := by
    simp only [cross, front, Cz, back, Prod.mk_sub_mk]
    norm_num
  have hnv : cross (Cz - front) (back - front) ≠ ((0, 0, 0) : Point) := by
    rw [hc]
    intro h0
    exact absurd (congrArg (fun p : Point => p.1) h0) (by norm_num)
  have h := (PointAlgebra.fpaf_special front Cz back (by norm_num [dot, front, Cz])
    (by norm_num [dot, front, back]) hnv).2.1
  rw [h]
  rw [show (back : Point) = ((0 : ℝ), (-1 : ℝ), (0 : ℝ)) from rfl, roundPoint_0n0]

theorem fpaf_bf_one : Utils.find_point_at_fraction back Cz front 1
    = Except.ok ((0 : ℝ), (1 : ℝ), (0 : ℝ)) := by
  have hc : cross (Cz - back) (front - back) = ((-2 : ℝ), (0 : ℝ), (0 : ℝ)) := by
    simp only [cross, front, Cz, back, Prod.mk_sub_mk]
    norm_num
  have hnv : cross (Cz - back) (front - back) ≠ ((0, 0, 0) : Point) := by
    rw [hc]
    intro h0
    exact absurd (congrArg (fun p : Point => p.1) h0) (by norm_num)
  have h := (PointAlgebra.fpaf_special back Cz front (by norm_num [dot, back, Cz])
    (by norm_num [dot, front, back]) hnv).2.1
  rw [h]
  rw [show (front : Point) = ((0 : ℝ), (1 : ℝ), (0 : ℝ)) from rfl, roundPoint_0p0]

theorem fpaf_lr_one : Utils.find_point_at_fraction left Cz right 1
    = Except.ok ((1 : ℝ), (0 : ℝ), (0 : ℝ)) := by
  have hc : cross (Cz - left) (right - left) = ((0 : ℝ), (2 : ℝ), (0 : ℝ)) := by
    simp only [cross, left, Cz, right, Prod.mk_sub_mk]
    norm_num
  have hnv : cross (Cz - left) (right - left) ≠ ((0, 0, 0) : Point) := by
    rw [hc]
    intro h0
    exact absurd (congrArg (fun p : Point => p.2.1) h0) (by norm_num)
  have h := (PointAlgebra.fpaf_special left Cz right (by norm_num [dot, left, Cz])
    (by norm_num [dot, left, right]) hnv).2.1
  rw [h]
  rw [show (right : Point) = ((1 : ℝ), (0 : ℝ), (0 : ℝ)) from rfl, roundPoint_p00]

theorem fpaf_rl_one : Utils.find_point_at_fraction right Cz left 1
    = Except.ok ((-1 : ℝ), (0 : ℝ), (0 : ℝ)) := by
  have hc : cross (Cz - right) (left - right) = ((0 : ℝ), (-2 : ℝ), (0 : ℝ)) := by
    simp only [cross, left, Cz, right, Prod.mk_sub_mk]
    norm_num
  have hnv : cross (Cz - right) (left - right) ≠ ((0, 0, 0) : Point) := by
    rw [hc]
    intro h0
    exact absurd (congrArg (fun p : Point => p.2.1) h0) (by norm_num)
  have h := (PointAlgebra.fpaf_special right Cz left (by norm_num [dot, right, Cz])
    (by norm_num [dot, left, right]) hnv).2.1
  rw [h]
  rw [show (left : Point) = ((-1 : ℝ), (0 : ℝ), (0 : ℝ)) from rfl, roundPoint_n00]

end CalcPositions

namespace CalcPositions

/-- With the empty catalog, the fraction modifier degenerates to `1/0 = 0`
in the real-number model, so the eight manual points are the frac-1 arc
endpoints. -/
theorem fpz_manual_ps_nil :
    fpz_manual_ps (1 / ((List.headD ([] : List (List String)) []).length : ℝ))
      = Except.ok [("OIz", ((0 : ℝ), (-1 : ℝ), (0 : ℝ))), ("Iz", ((0 : ℝ), (-1 : ℝ), (0 : ℝ))),
          ("NFpz", ((0 : ℝ), (1 : ℝ), (0 : ℝ))), ("Nz", ((0 : ℝ), (1 : ℝ), (0 : ℝ))),
          ("T10h", ((1 : ℝ), (0 : ℝ), (0 : ℝ))), ("T10", ((1 : ℝ), (0 : ℝ), (0 : ℝ))),
          ("T9h", ((-1 : ℝ), (0 : ℝ), (0 : ℝ))), ("T9", ((-1 : ℝ), (0 : ℝ), (0 : ℝ)))] := by
  have hfm : (1 : ℝ) / ((List.headD ([] : List (List String)) []).length : ℝ) = 0 := by
    simp
  have hf1 : (1 : ℝ) + 1 * ((1 : ℝ) / ((List.headD ([] : List (List String)) []).length : ℝ))
      = 1 := by rw [hfm]; ring
  have hf2 : (1 : ℝ) + 2 * ((1 : ℝ) / ((List.headD ([] : List (List String)) []).length : ℝ))
      = 1 := by rw [hfm]; ring
  unfold fpz_manual_ps
  rw [hf1, hf2, fpaf_fb_one, fpaf_bf_one, fpaf_lr_one, fpaf_rl_one]

/-- The table after the fix-up with the empty catalog. -/
theorem fpz_fixup_nil :
    fpz_fixup (seed_table "Fpz-T8-Oz-T7")
      (1 / ((List.headD ([] : List (List String)) []).length : ℝ))
      = Except.ok (seed_table "Fpz-T8-Oz-T7"
          ++ [("OIz", ((0 : ℝ), (-1 : ℝ), (0 : ℝ))), ("Iz", ((0 : ℝ), (-1 : ℝ), (0 : ℝ))),
              ("NFpz", ((0 : ℝ), (1 : ℝ), (0 : ℝ))), ("Nz", ((0 : ℝ), (1 : ℝ), (0 : ℝ))),
              ("T10h", ((1 : ℝ), (0 : ℝ), (0 : ℝ))), ("T10", ((1 : ℝ), (0 : ℝ), (0 : ℝ))),
              ("T9h", ((-1 : ℝ), (0 : ℝ), (0 : ℝ))), ("T9", ((-1 : ℝ), (0 : ℝ), (0 : ℝ)))]) := by
  unfold fpz_fixup
  rw [fpz_manual_ps_nil]
  show Except.ok (dropDuplicatesFirst (seed_table "Fpz-T8-Oz-T7" ++ _) []) = _
  rw [ddf_append _ _ [] (by decide) (by simp)]
  rw [ddf_id_of_disjoint _ _ (by decide) (by decide)]

end CalcPositions

open CalcPositions in
/-- Witness for C8: the whole `Fpz-T8-Oz-T7` orchestration on the empty
catalog succeeds and exhibits the manual fix-up structure. -/
theorem C8_fpz_manual_fixup_witness :
    calc_positions_fpz []
      = Except.ok (seed_table "Fpz-T8-Oz-T7"
          ++ [("OIz", ((0 : ℝ), (-1 : ℝ), (0 : ℝ))), ("Iz", ((0 : ℝ), (-1 : ℝ), (0 : ℝ))),
              ("NFpz", ((0 : ℝ), (1 : ℝ), (0 : ℝ))), ("Nz", ((0 : ℝ), (1 : ℝ), (0 : ℝ))),
              ("T10h", ((1 : ℝ), (0 : ℝ), (0 : ℝ))), ("T10", ((1 : ℝ), (0 : ℝ), (0 : ℝ))),
              ("T9h", ((-1 : ℝ), (0 : ℝ), (0 : ℝ))), ("T9", ((-1 : ℝ), (0 : ℝ), (0 : ℝ)))])
    ∧ (∃ df1 ps df2,
        expand_all (seed_table "Fpz-T8-Oz-T7")
          (List.take (List.length ([] : List (List String)) - 5) []) = Except.ok df1
        ∧ fpz_manual_ps (1 / ((List.headD ([] : List (List String)) []).length : ℝ))
          = Except.ok ps
        ∧ df2 = dropDuplicatesFirst (df1 ++ ps) []
        ∧ expand_all df2 (List.drop (List.length ([] : List (List String)) - 5) [])
          = Except.ok (seed_table "Fpz-T8-Oz-T7"
              ++ [("OIz", ((0 : ℝ), (-1 : ℝ), (0 : ℝ))), ("Iz", ((0 : ℝ), (-1 : ℝ), (0 : ℝ))),
                  ("NFpz", ((0 : ℝ), (1 : ℝ), (0 : ℝ))), ("Nz", ((0 : ℝ), (1 : ℝ), (0 : ℝ))),
                  ("T10h", ((1 : ℝ), (0 : ℝ), (0 : ℝ))), ("T10", ((1 : ℝ), (0 : ℝ), (0 : ℝ))),
                  ("T9h", ((-1 : ℝ), (0 : ℝ), (0 : ℝ))), ("T9", ((-1 : ℝ), (0 : ℝ), (0 : ℝ)))])
        ∧ labelsOf ps = ["OIz", "Iz", "NFpz", "Nz", "T10h", "T10", "T9h", "T9"]
        ∧ (∃ q1 q2 q3 q4 q5 q6 q7 q8,
            Utils.find_point_at_fraction front Cz back
              (1 + 1 * (1 / ((List.headD ([] : List (List String)) []).length : ℝ)))
              = Except.ok q1
            ∧ Utils.find_point_at_fraction front Cz back
              (1 + 2 * (1 / ((List.headD ([] : List (List String)) []).length : ℝ)))
              = Except.ok q2
            ∧ Utils.find_point_at_fraction back Cz front
              (1 + 1 * (1 / ((List.headD ([] : List (List String)) []).length : ℝ)))
              = Except.ok q3
            ∧ Utils.find_point_at_fraction back Cz front
              (1 + 2 * (1 / ((List.headD ([] : List (List String)) []).length : ℝ)))
              = Except.ok q4
            ∧ Utils.find_point_at_fraction left Cz right
              (1 + 1 * (1 / ((List.headD ([] : List (List String)) []).length : ℝ)))
              = Except.ok q5
            ∧ Utils.find_point_at_fraction left Cz right
              (1 + 2 * (1 / ((List.headD ([] : List (List String)) []).length : ℝ)))
              = Except.ok q6
            ∧ Utils.find_point_at_fraction right Cz left
              (1 + 1 * (1 / ((List.headD ([] : List (List String)) []).length : ℝ)))
              = Except.ok q7
            ∧ Utils.find_point_at_fraction right Cz left
              (1 + 2 * (1 / ((List.headD ([] : List (List String)) []).length : ℝ)))
              = Except.ok q8
            ∧ ps = [("OIz", q1), ("Iz", q2), ("NFpz", q3), ("Nz", q4),
                    ("T10h", q5), ("T10", q6), ("T9h", q7), ("T9", q8)])
        ∧ (∀ (l : String) (p : Point), (l, p) ∈ ps → l ∉ labelsOf df1 →
            get_xyz df2 l = Except.ok p)) := by
  have hrun : calc_positions_fpz []
      = Except.ok (seed_table "Fpz-T8-Oz-T7"
          ++ [("OIz", ((0 : ℝ), (-1 : ℝ), (0 : ℝ))), ("Iz", ((0 : ℝ), (-1 : ℝ), (0 : ℝ))),
              ("NFpz", ((0 : ℝ), (1 : ℝ), (0 : ℝ))), ("Nz", ((0 : ℝ), (1 : ℝ), (0 : ℝ))),
              ("T10h", ((1 : ℝ), (0 : ℝ), (0 : ℝ))), ("T10", ((1 : ℝ), (0 : ℝ), (0 : ℝ))),
              ("T9h", ((-1 : ℝ), (0 : ℝ), (0 : ℝ))), ("T9", ((-1 : ℝ), (0 : ℝ), (0 : ℝ)))]) :=
    calc_fpz_ok_of [] (seed_table "Fpz-T8-Oz-T7") _ _ rfl fpz_fixup_nil rfl
  exact ⟨hrun, C8_fpz_manual_fixup [] _ hrun⟩
